import Mathlib

/-!
Verification of the LaTeX translation pipeline of the ai_tool_platform
repository (backend/app/custom_tools/arxiv_translate).

Python strings are embedded as List Char; every function below is a direct
translation of the corresponding Python function in splitter.py,
compiler.py, service.py or translator.py.  External effects (the regex
engine's mask construction, subprocess runs, the network model call) enter
as explicit parameters, documented at each definition.
-/

namespace ArxivTranslate

/-- PyStr is the embedding of a Python str: a list of unicode characters. -/
abbrev PyStr := List Char

/-- Membership test for the code points Python's str.isspace accepts, i.e.
the character class stripped by str.strip() and matched by the regex class
for whitespace. -/
def pyIsSpace (c : Char) : Bool :=
  let n := c.toNat
  (9 ≤ n ∧ n ≤ 13) || n == 32 || (28 ≤ n ∧ n ≤ 31) || n == 0x85 || n == 0xa0 ||
  n == 0x1680 || (0x2000 ≤ n ∧ n ≤ 0x200a) || n == 0x2028 || n == 0x2029 ||
  n == 0x202f || n == 0x205f || n == 0x3000

/-- Python s.lstrip(chars): drop the longest prefix of characters satisfying p. -/
def pyDropLeading (p : Char → Bool) (s : PyStr) : PyStr := s.dropWhile p

/-- Python s.rstrip(chars): drop the longest suffix of characters satisfying p. -/
def pyDropTrailing (p : Char → Bool) (s : PyStr) : PyStr :=
  (s.reverse.dropWhile p).reverse

/-- Python s.strip(chars) for a character predicate. -/
def pyStripWith (p : Char → Bool) (s : PyStr) : PyStr :=
  pyDropTrailing p (pyDropLeading p s)

/-- Python s.strip() with no argument: strip whitespace on both ends. -/
def pyStrip (s : PyStr) : PyStr := pyStripWith pyIsSpace s

/-- Python sub in s (the in operator): some suffix of s has sub as a prefix. -/
def containsSub (s sub : PyStr) : Bool :=
  (List.range (s.length + 1)).any (fun i => sub.isPrefixOf (s.drop i))

/-- Auxiliary worker for countSub below; counts non-overlapping matches of
the nonempty pattern pat scanning s left to right, as Python str.count does. -/
def countSubGo (pat : PyStr) (hp : pat ≠ []) : PyStr → Nat
  | [] => 0
  | c :: rest =>
    if pat.isPrefixOf (c :: rest) then
      1 + countSubGo pat hp ((c :: rest).drop pat.length)
    else
      countSubGo pat hp rest
termination_by s => s.length
decreasing_by
  · simp only [List.length_drop, List.length_cons]
    have : 1 ≤ pat.length := List.length_pos.mpr hp
    omega
  · simp

/-- Python s.count(sub): number of non-overlapping occurrences, scanning
left to right.  For the empty pattern Python returns len(s) + 1. -/
def countSub (pat s : PyStr) : Nat :=
  if hp : pat = [] then s.length + 1 else countSubGo pat hp s

/-- Python line-boundary characters for str.splitlines (CR LF is handled
as a single boundary in pySplitlines). -/
def isLineBoundary (c : Char) : Bool :=
  let n := c.toNat
  n == 10 || n == 13 || n == 11 || n == 12 || n == 28 || n == 29 || n == 30 ||
  n == 0x85 || n == 0x2028 || n == 0x2029

/-- Worker for pySplitlines: cur is the line being accumulated. -/
def pySplitlinesGo (cur : PyStr) : PyStr → List PyStr
  | [] => if cur = [] then [] else [cur]
  | '\r' :: '\n' :: rest2 => cur :: pySplitlinesGo [] rest2
  | c :: rest =>
    if isLineBoundary c then
      cur :: pySplitlinesGo [] rest
    else
      pySplitlinesGo (cur ++ [c]) rest

/-- Python s.splitlines(): no trailing empty line for a final boundary,
and the empty string yields no lines. -/
def pySplitlines (s : PyStr) : List PyStr := pySplitlinesGo [] s

/-- Python sep.join(lines) for sep = a single newline. -/
def joinNewline : List PyStr → PyStr
  | [] => []
  | [l] => l
  | l :: rest => l ++ '\n' :: joinNewline rest

/-- ASCII letter test, the regex class of lowercase and uppercase letters. -/
def isAsciiAlpha (c : Char) : Bool :=
  ('a' ≤ c ∧ c ≤ 'z') || ('A' ≤ c ∧ c ≤ 'Z')

/-- ASCII lowercase conversion used to model re.IGNORECASE on the ASCII
pattern text (full Unicode case folding is not modelled; every concrete
input below is ASCII). -/
def asciiLower (c : Char) : Char :=
  if 'A' ≤ c ∧ c ≤ 'Z' then Char.ofNat (c.toNat + 32) else c

/-- Case-insensitive (ASCII) prefix test of a lowercase pattern. -/
def isPrefixOfCaseless : PyStr → PyStr → Bool
  | [], _ => true
  | _ :: _, [] => false
  | p :: ps, c :: cs => (asciiLower c == p) && isPrefixOfCaseless ps cs

/-- Occurrence test of pat at position i of s, as the regex and str.find
machinery uses it. -/
def matchAt (s pat : PyStr) (i : Nat) : Bool := pat.isPrefixOf (s.drop i)

/-- Python s.find(pat, start): smallest index at or after start where pat
occurs, None when there is no occurrence. -/
def pyFindFrom (s pat : PyStr) (start : Nat) : Option Nat :=
  (List.range (s.length + 1)).find? (fun i => decide (start ≤ i) && matchAt s pat i)

/-- Python s.rfind(pat, 0, endExcl): greatest index whose occurrence of pat
lies entirely before endExcl, None when there is no such occurrence. -/
def pyRfindBefore (s pat : PyStr) (endExcl : Nat) : Option Nat :=
  ((List.range (s.length + 1)).filter
    (fun i => decide (i + pat.length ≤ endExcl) && matchAt s pat i)).getLast?

/-- LatexSegment mirrors the dataclass LatexSegment of splitter.py. -/
structure LatexSegment where
  text : PyStr
  translatable : Bool
  start_line : Nat
  end_line : Nat
deriving Repr, DecidableEq

/-- SHORT_SEGMENT_MIN_CHARS of splitter.py. -/
def SHORT_SEGMENT_MIN_CHARS : Nat := 42

/-- Embedding of estimate_token_count of splitter.py in its deterministic
fallback branch max(1, len(text) // 4).  The tiktoken branch is an optional
external collaborator (spec section 4.1: falls back to length / 4). -/
def estimate_token_count (text : PyStr) : Nat := max 1 (text.length / 4)

/-- Length of dropWhile never exceeds the length of the input list. -/
theorem length_dropWhile_le_self {α} (p : α → Bool) (l : List α) :
    (l.dropWhile p).length ≤ l.length := by
  induction l with
  | nil => simp [List.dropWhile]
  | cons a l ih =>
    simp only [List.dropWhile]
    split
    · exact Nat.le_succ_of_le ih
    · exact Nat.le_refl _

/-- Run extraction loop of segment_latex_text (splitter.py lines 340-349):
maximal runs of characters with the same mask flag, in order.  The text and
its per-character mask are zipped into one list. -/
def rawChunks : List (Char × Bool) → List (PyStr × Bool)
  | [] => []
  | (c, f) :: rest =>
    (c :: (rest.takeWhile (fun p => p.2 == f)).map Prod.fst, f) ::
      rawChunks (rest.dropWhile (fun p => p.2 == f))
termination_by l => l.length
decreasing_by
  have := length_dropWhile_le_self (fun p => p.2 == f) rest
  simp_arith
  omega

/-- Step 1 of post_process_chunks: a translatable chunk whose text, stripped
of surrounding newlines and whitespace, is shorter than
SHORT_SEGMENT_MIN_CHARS is demoted to protected. -/
def demoteShortChunk (p : PyStr × Bool) : PyStr × Bool :=
  if p.2 then
    let core := pyStrip (pyStripWith (fun c => c == '\n') p.1)
    if core.length < SHORT_SEGMENT_MIN_CHARS then (p.1, false) else p
  else p

/-- Step 2 of post_process_chunks: adjacent chunks with the same flag are
merged (the Python loop folds into the last element of merged). -/
def mergeAdjacentChunks : List (PyStr × Bool) → List (PyStr × Bool)
  | [] => []
  | [p] => [p]
  | p :: q :: rest =>
    if p.2 == q.2 then mergeAdjacentChunks ((p.1 ++ q.1, q.2) :: rest)
    else p :: mergeAdjacentChunks (q :: rest)
termination_by l => l.length
decreasing_by all_goals simp_arith

/-- Embedding of post_process_chunks of splitter.py. -/
def post_process_chunks (chunks : List (PyStr × Bool)) : List (PyStr × Bool) :=
  mergeAdjacentChunks (chunks.map demoteShortChunk)

/-- Line-number assignment loop at the end of segment_latex_text: each
segment starts at the running line cursor and ends after its newlines. -/
def assignSegmentLines : List (PyStr × Bool) → Nat → List LatexSegment
  | [], _ => []
  | (t, f) :: rest, cur =>
    ⟨t, f, cur, cur + t.count '\n'⟩ :: assignSegmentLines rest (cur + t.count '\n')

/-- Embedding of segment_latex_text of splitter.py.  The mask construction
build_translation_mask is a pure function of the text computed by a stack
of regular-expression rules; it enters here as the parameter buildMask,
whose only interface relevant to segmentation is that it yields one boolean
per character (the Python code allocates mask = A list of len(text) booleans
and mutates ranges in place, so its length always equals len(text)). -/
def segment_latex_text (buildMask : PyStr → List Bool) (text : PyStr) :
    List LatexSegment :=
  if text = [] then []
  else assignSegmentLines (post_process_chunks (rawChunks (text.zip (buildMask text)))) 1

/-- Separator preference list of pick_split_index. -/
def splitSeparators : List PyStr :=
  ["\n\n".toList, "\n".toList, ". ".toList, "。".toList, "; ".toList,
   "；".toList, ", ".toList, "，".toList]

/-- Python min(candidates, key=f) for a nonempty list: the first element
attaining the minimal key. -/
def firstMinBy (f : Nat → Nat) (x : Nat) (xs : List Nat) : Nat :=
  xs.foldl (fun best y => if f y < f best then y else best) x

/-- Embedding of pick_split_index of splitter.py.  The float expression
int(len(text) * (max_tokens / max(total_tokens, 1))) and the float products
len(text)*0.15 and len(text)*0.85 are modelled by exact rational floors
(Nat division); the callers only use the result through clamping into
the open interior of the text. -/
def pick_split_index (text : PyStr) (max_tokens : Nat) : Int :=
  let total := estimate_token_count text
  if total ≤ max_tokens ∨ text.length < 2 then -1
  else
    let target : Nat := min (max 1 (text.length * max_tokens / max total 1)) (text.length - 1)
    let min_pos : Nat := max 1 (text.length * 15 / 100)
    let max_pos : Nat := min (text.length - 1) (text.length * 85 / 100)
    let candOf : PyStr → List Nat := fun sep =>
      (match pyRfindBefore text sep (target + 1) with
       | some left =>
         if min_pos ≤ left + sep.length ∧ left + sep.length ≤ max_pos then
           [left + sep.length] else []
       | none => []) ++
      (match pyFindFrom text sep target with
       | some right =>
         if min_pos ≤ right + sep.length ∧ right + sep.length ≤ max_pos then
           [right + sep.length] else []
       | none => [])
    match (splitSeparators.map candOf).flatten with
    | [] => (target : Int)
    | c :: cs => (firstMinBy (fun x => Nat.dist x target) c cs : Int)

/-- Midpoint fallback applied to the picked split index in
split_text_to_token_limit when the pick is out of range (the picked value
is an Int; pick_split_index is pure, so reading it twice equals the
Python local binding). -/
def split_index_fallback (text : PyStr) (max_tokens : Nat) : Nat :=
  if pick_split_index text max_tokens ≤ 0 ∨
      (text.length : Int) ≤ pick_split_index text max_tokens then
    text.length / 2
  else (pick_split_index text max_tokens).toNat

/-- Clamp of the (fallen-back) split index into the open interior of the
text, as split_text_to_token_limit computes it. -/
def chosen_split_index (text : PyStr) (max_tokens : Nat) : Nat :=
  min (max 1 (split_index_fallback text max_tokens)) (text.length - 1)

/-- Embedding of split_text_to_token_limit of splitter.py: recursive
bisection near the chosen split point until every piece fits the budget. -/
def split_text_to_token_limit (text : PyStr) (max_tokens : Nat) : List PyStr :=
  if text = [] then []
  else if estimate_token_count text ≤ max_tokens then [text]
  else
    let si : Nat := chosen_split_index text max_tokens
    if h : text.take si = [] ∨ text.drop si = [] then [text]
    else
      split_text_to_token_limit (text.take si) max_tokens ++
        split_text_to_token_limit (text.drop si) max_tokens
termination_by text.length
decreasing_by
  · push_neg at h
    obtain ⟨h1, h2⟩ := h
    have hs1 : ¬(si = 0 ∨ text = []) := fun hc => h1 (List.take_eq_nil_iff.mpr hc)
    have hs2 : ¬(text.length ≤ si) := fun hc => h2 (List.drop_eq_nil_iff.mpr hc)
    push_neg at hs1
    simp only [List.length_take]
    omega
  · push_neg at h
    obtain ⟨h1, h2⟩ := h
    have hs1 : ¬(si = 0 ∨ text = []) := fun hc => h1 (List.take_eq_nil_iff.mpr hc)
    push_neg at hs1
    have : 0 < text.length := List.length_pos.mpr hs1.2
    simp only [List.length_drop]
    omega

/-- Line assignment for the split pieces of one oversized translatable
segment (the inner loop of split_translatable_segments_by_token_limit). -/
def assignChunkLines : List PyStr → Nat → List LatexSegment
  | [], _ => []
  | c :: rest, cursor =>
    ⟨c, true, cursor, cursor + c.count '\n'⟩ :: assignChunkLines rest (cursor + c.count '\n')

/-- Embedding of split_translatable_segments_by_token_limit of splitter.py. -/
def split_translatable_segments_by_token_limit
    (segments : List LatexSegment) (max_tokens : Nat) : List LatexSegment :=
  let token_limit := max 256 max_tokens
  (segments.map (fun seg =>
    if ¬seg.translatable ∨ estimate_token_count seg.text ≤ token_limit then [seg]
    else assignChunkLines (split_text_to_token_limit seg.text token_limit) seg.start_line)).flatten

/-- Embedding of build_translation_segments of splitter.py. -/
def build_translation_segments (buildMask : PyStr → List Bool) (text : PyStr)
    (max_tokens : Nat) : List LatexSegment :=
  split_translatable_segments_by_token_limit (segment_latex_text buildMask text) max_tokens

/-- Mask builder returning all True, i.e. everything translatable.  On any
text containing no backslash, dollar or percent character none of the
regex rules of build_translation_mask in splitter.py matches, so the
source's mask builder returns exactly this mask; concrete witnesses below
only instantiate it on such texts. -/
def allTranslatableMask (t : PyStr) : List Bool := List.replicate t.length true

/-- Opening brace character, written with its code point. -/
def lbrace : Char := '\x7b'

/-- Closing brace character, written with its code point. -/
def rbrace : Char := '\x7d'

/-- Embedding of normalize_llm_translated_chunk of splitter.py: strip, and
unwrap a whole-response Markdown code fence. -/
def normalize_llm_translated_chunk (text : PyStr) : PyStr :=
  let out := pyStrip text
  if "```".toList.isPrefixOf out then
    let lines := pySplitlines out
    if 2 ≤ lines.length ∧ "```".toList.isPrefixOf (lines.headD []) ∧
        "```".toList.isPrefixOf (lines.getLastD []) then
      pyStrip (joinNewline (lines.drop 1).dropLast)
    else out
  else out

/-- Refusal and tool-error marker substrings of guard_translated_segment. -/
def bannedSignals : List PyStr :=
  ["Traceback".toList, "[Local Message]".toList, "抱歉，我无法".toList,
   "公式无需翻译".toList, "请提供您需要翻译的 LaTeX 片段".toList,
   "请提供需要翻译的 LaTeX 片段".toList, "Please provide the LaTeX".toList,
   "I cannot comply".toList, "I can’t comply".toList, "I can\x27t comply".toList]

/-- Scanner for the substitution that escapes a target character unless the
input character before it is a backslash (regex negative lookbehind); the
replacement writes a backslash and then the character.  Used for the bare
percent and bare underscore rewrites in guard_translated_segment. -/
def subEscapeUnescapedGo (target : Char) (prev : Option Char) : PyStr → PyStr
  | [] => []
  | c :: cs =>
    if c = target ∧ prev ≠ some '\\' then
      '\\' :: c :: subEscapeUnescapedGo target (some c) cs
    else c :: subEscapeUnescapedGo target (some c) cs

/-- Escape every percent not preceded by a backslash. -/
def subEscapePercent (s : PyStr) : PyStr := subEscapeUnescapedGo '%' none s

/-- Escape every underscore not preceded by a backslash. -/
def subEscapeUnderscore (s : PyStr) : PyStr := subEscapeUnescapedGo '_' none s

/-- Scanner for the substitution removing a spurious space between a command
name of 2 to 20 letters and its opening brace.  The greedy letter quantifier
with the following literal space admits a match exactly when the maximal
letter run after the backslash has length 2 to 20 and a space and opening
brace follow it. -/
def subSpaceAfterCmd : PyStr → PyStr
  | [] => []
  | c :: rest =>
    if c = '\\' then
      let run := rest.takeWhile isAsciiAlpha
      match h : rest.drop run.length with
      | d1 :: d2 :: tail =>
        if d1 = ' ' ∧ d2 = lbrace ∧ 2 ≤ run.length ∧ run.length ≤ 20 then
          '\\' :: (run ++ lbrace :: subSpaceAfterCmd tail)
        else c :: subSpaceAfterCmd rest
      | _ => c :: subSpaceAfterCmd rest
    else c :: subSpaceAfterCmd rest
termination_by s => s.length
decreasing_by
  · have hlen : (rest.drop run.length).length ≤ rest.length := by
      simp only [List.length_drop]; omega
    rw [h] at hlen
    simp only [List.length_cons] at hlen ⊢
    omega
  · simp
  · simp
  · simp

/-- Scanner for the substitution removing a spurious space between the
backslash and a command name of 2 to 20 letters followed by an opening
brace. -/
def subSpaceBeforeCmd : PyStr → PyStr
  | [] => []
  | '\\' :: ' ' :: rest =>
    (let run := rest.takeWhile isAsciiAlpha
     match h : rest.drop run.length with
     | d :: tail =>
       if d = lbrace ∧ 2 ≤ run.length ∧ run.length ≤ 20 then
         '\\' :: (run ++ lbrace :: subSpaceBeforeCmd tail)
       else '\\' :: subSpaceBeforeCmd (' ' :: rest)
     | _ => '\\' :: subSpaceBeforeCmd (' ' :: rest))
  | c :: rest => c :: subSpaceBeforeCmd rest
termination_by s => s.length
decreasing_by
  · have hlen : (rest.drop run.length).length ≤ rest.length := by
      simp only [List.length_drop]; omega
    rw [h] at hlen
    simp only [List.length_cons] at hlen ⊢
    omega
  · simp_arith
  · simp_arith
  · simp

/-- Fullwidth punctuation normalization of _mod_in_bracket. -/
def fixPunctInBracket (c : Char) : Char :=
  if c = '：' then ':' else if c = '，' then ',' else c

/-- Scanner for the substitution applying _mod_in_bracket to every match of
a backslash command of 2 to 20 letters with a brace payload free of closing
braces (the non-greedy payload class matches up to the first closing
brace). -/
def subModInBracket : PyStr → PyStr
  | [] => []
  | c :: rest =>
    if c = '\\' then
      let run := rest.takeWhile isAsciiAlpha
      match h : rest.drop run.length with
      | d :: body =>
        if d = lbrace then
          let payload := body.takeWhile (fun e => e ≠ rbrace)
          match h2 : body.drop payload.length with
          | e :: tail =>
            if e = rbrace ∧ 2 ≤ run.length ∧ run.length ≤ 20 then
              '\\' :: (run ++ lbrace ::
                (payload.map fixPunctInBracket ++ rbrace :: subModInBracket tail))
            else c :: subModInBracket rest
          | _ => c :: subModInBracket rest
        else c :: subModInBracket rest
      | _ => c :: subModInBracket rest
    else c :: subModInBracket rest
termination_by s => s.length
decreasing_by
  · have hlen : (rest.drop run.length).length ≤ rest.length := by
      simp only [List.length_drop]; omega
    rw [h] at hlen
    have hlen2 : (body.drop payload.length).length ≤ body.length := by
      simp only [List.length_drop]; omega
    rw [h2] at hlen2
    simp only [List.length_cons] at hlen hlen2 ⊢
    omega
  · simp
  · simp
  · simp
  · simp
  · simp

/-- Embedding of _brace_level of splitter.py (the level may go negative). -/
def braceLevel (s : PyStr) : Int :=
  s.foldl (fun lvl ch => if ch = lbrace then lvl + 1 else if ch = rbrace then lvl - 1 else lvl) 0

/-- Worker for findNextIn: scan a list carrying the absolute index. -/
def findFromIdx (cs : List Char) : List Char → Nat → Nat → Option (Nat × Char)
  | [], _, _ => none
  | c :: rest, idx, start =>
    if start ≤ idx ∧ c ∈ cs then some (idx, c) else findFromIdx cs rest (idx + 1) start

/-- Embedding of the local _find_next of _join_most: first position at or
after start holding one of the characters cs, with the character found. -/
def findNextIn (src : PyStr) (cs : List Char) (start : Nat) : Option (Nat × Char) :=
  findFromIdx cs src 0 start

/-- A hit of findFromIdx lies at or after start and before idx plus the
remaining length. -/
theorem findFromIdx_bounds (cs : List Char) (l : List Char) (idx start j : Nat) (ch : Char)
    (h : findFromIdx cs l idx start = some (j, ch)) : start ≤ j ∧ j < idx + l.length := by
  induction l generalizing idx with
  | nil => simp [findFromIdx] at h
  | cons c rest ih =>
    simp only [findFromIdx] at h
    split at h
    · simp only [Option.some.injEq, Prod.mk.injEq] at h
      obtain ⟨rfl, rfl⟩ := h
      rename_i hg
      refine ⟨hg.1, ?_⟩
      simp_arith
    · have := ih (idx + 1) h
      refine ⟨this.1, ?_⟩
      simp only [List.length_cons]
      omega

/-- A hit of findNextIn lies at or after start and inside the source. -/
theorem findNextIn_bounds (src : PyStr) (cs : List Char) (start j : Nat) (ch : Char)
    (h : findNextIn src cs start = some (j, ch)) : start ≤ j ∧ j < src.length := by
  have := findFromIdx_bounds cs src 0 start j ch h
  omega

/-- Cursor-advancing loop of _join_most of splitter.py. -/
def joinMostLoop (t o : PyStr) (pt po : Nat) : Nat × Nat :=
  match h1 : findNextIn o [lbrace, rbrace] po with
  | none => (pt, po)
  | some (io, ch) =>
    match findNextIn t [ch] pt with
    | none => (pt, po)
    | some (it, _) => joinMostLoop t o (it + 1) (io + 1)
termination_by o.length - po
decreasing_by
  have := findNextIn_bounds o [lbrace, rbrace] po io ch h1
  omega

/-- Embedding of _join_most of splitter.py: align the brace-character
sequences of the translated text and the original, truncate the translated
text where they diverge and append the rest of the original. -/
def join_most (translated original : PyStr) : PyStr :=
  let pr := joinMostLoop translated original 0 0
  translated.take pr.1 ++ original.drop pr.2

/-- Embedding of _restore_edge_whitespace of splitter.py. -/
def restore_edge_whitespace (original translated : PyStr) : PyStr :=
  if original = [] then translated
  else
    (original.takeWhile pyIsSpace) ++ pyStrip translated ++
      (original.reverse.takeWhile pyIsSpace).reverse

/-- Structural token strings counted by guard_translated_segment. -/
def beginTok : PyStr := "\\begin".toList

/-- The end-environment token. -/
def endTok : PyStr := "\\end".toList

/-- The item token. -/
def itemTok : PyStr := "\\item".toList

/-- The caption token. -/
def captionTok : PyStr := "\\caption".toList

/-- The escaped-underscore token. -/
def escUnderscoreTok : PyStr := "\\_".toList

/-- First stages of guard_translated_segment of splitter.py, up to the
escaped-underscore regression fix: normalization, refusal-signal fallback,
the three cosmetic regex substitutions, and the four structural count
checks.  Returns none when the code falls back to the original at one of
these stages, and otherwise the candidate text entering the brace-balance
stage. -/
def guardCandidate (original translated : PyStr) : Option PyStr :=
  let out0 := normalize_llm_translated_chunk translated
  if out0 = [] then none
  else if bannedSignals.any (fun sig => containsSub out0 sig) then none
  else
    let out1 := subModInBracket (subSpaceBeforeCmd (subSpaceAfterCmd (subEscapePercent out0)))
    if countSub beginTok original ≠ countSub beginTok out1 then none
    else if countSub endTok original ≠ countSub endTok out1 then none
    else if countSub itemTok original ≠ countSub itemTok out1 then none
    else if countSub captionTok original ≠ countSub captionTok out1 then none
    else if 0 < countSub escUnderscoreTok original ∧
        countSub escUnderscoreTok out1 < countSub escUnderscoreTok original then
      some (subEscapeUnderscore out1)
    else some out1

/-- Final stage of guard_translated_segment: the runaway-generation cap
(only for originals of at least 200 characters) and edge-whitespace
restoration. -/
def guardFinalStage (original out3 : PyStr) : PyStr :=
  if 200 ≤ original.length ∧ 3 * original.length < out3.length then original
  else restore_edge_whitespace original out3

/-- Brace-balance stage of guard_translated_segment: when the candidate's
brace level differs from the original's, realign with _join_most; if the
level still differs, fall back to the original, otherwise continue with the
final stage (when the levels already agree the realignment is skipped and
the recheck trivially passes). -/
def guardBraceStage (original out2 : PyStr) : PyStr :=
  if braceLevel out2 = braceLevel original then guardFinalStage original out2
  else if braceLevel (join_most out2 original) ≠ braceLevel original then original
  else guardFinalStage original (join_most out2 original)

/-- Embedding of guard_translated_segment of splitter.py: the candidate
stages above, then brace-balance reconciliation through _join_most, the
runaway-generation cap, and edge-whitespace restoration. -/
def guard_translated_segment (original translated : PyStr) : PyStr :=
  match guardCandidate original translated with
  | none => original
  | some out2 => guardBraceStage original out2

/-- Matcher for the optional-bracket tail of the section heading pattern:
an optional whitespace-bracket group, whitespace, and the opening brace.
Returns the number of characters consumed.  The greedy whitespace and
bracket-interior quantifiers admit no shorter backtracking alternatives
because none of their characters can equal the literal that must follow. -/
def matchSectionTail (l2 : PyStr) : Option Nat :=
  let ws1 := l2.takeWhile pyIsSpace
  let tryA : Option Nat :=
    match l2.drop ws1.length with
    | c :: l4 =>
      if c = '[' then
        let inner := l4.takeWhile (fun d => d ≠ ']')
        match l4.drop inner.length with
        | d :: l5 =>
          if d = ']' then
            let ws2 := l5.takeWhile pyIsSpace
            match l5.drop ws2.length with
            | e :: _ =>
              if e = lbrace then
                some (ws1.length + 1 + inner.length + 1 + ws2.length + 1)
              else none
            | [] => none
          else none
        | [] => none
      else none
    | [] => none
  match tryA with
  | some k => some k
  | none =>
    match l2.drop ws1.length with
    | e :: _ => if e = lbrace then some (ws1.length + 1) else none
    | [] => none

/-- Matcher for the section-heading command regex of
ensure_section_title_bold at the head of l: a section command with optional
star, optional bracket options and the opening brace.  Returns the length
of the match (which ends at the opening brace). -/
def matchSectionLen (l : PyStr) : Option Nat :=
  if "\\section".toList.isPrefixOf l then
    let l1 := l.drop 8
    let starLen := if l1.headD ' ' = '*' then 1 else 0
    match matchSectionTail (l1.drop starLen) with
    | some t => some (8 + starLen + t)
    | none => none
  else none

/-- A section-heading match consumes at least one character. -/
theorem matchSectionLen_pos (l : PyStr) (k : Nat) (h : matchSectionLen l = some k) :
    0 < k := by
  unfold matchSectionLen at h
  split at h
  · simp only at h
    split at h
    · simp only [Option.some.injEq] at h
      omega
    · exact absurd h (by simp)
  · exact absurd h (by simp)

/-- Nonoverlapping left-to-right scan of re.finditer for the
section-heading pattern, yielding the absolute position of each match's
opening brace (the last character of the match). -/
def sectionScan : PyStr → Nat → List Nat
  | [], _ => []
  | c :: rest, i =>
    match h : matchSectionLen (c :: rest) with
    | some k => (i + k - 1) :: sectionScan ((c :: rest).drop k) (i + k)
    | none => sectionScan rest (i + 1)
termination_by l => l.length
decreasing_by
  · have hk := matchSectionLen_pos _ _ h
    simp only [List.length_drop, List.length_cons]
    omega
  · simp

/-- Brace-walking loop of _find_matching_brace, carried over the suffix of
the text starting at the opening brace, with the absolute index and the
running nesting level. -/
def findCloseGo : PyStr → Nat → Nat → Option Nat
  | [], _, _ => none
  | c :: rest, idx, level =>
    if c = lbrace then findCloseGo rest (idx + 1) (level + 1)
    else if c = rbrace then
      if level = 1 then some idx else findCloseGo rest (idx + 1) (level - 1)
    else findCloseGo rest (idx + 1) level

/-- Embedding of _find_matching_brace of splitter.py: the absolute index of
the brace closing the one at openPos, None when absent (the Python function
returns -1 then). -/
def findMatchingBrace (text : PyStr) (openPos : Nat) : Option Nat :=
  match text.drop openPos with
  | c :: rest => if c = lbrace then findCloseGo (c :: rest) openPos 0 else none
  | [] => none

/-- A hit of findCloseGo lies at or after idx and within the scanned suffix. -/
theorem findCloseGo_bounds (l : PyStr) (idx level j : Nat)
    (h : findCloseGo l idx level = some j) : idx ≤ j ∧ j < idx + l.length := by
  induction l generalizing idx level with
  | nil => simp [findCloseGo] at h
  | cons c rest ih =>
    simp only [findCloseGo] at h
    split at h
    · have := ih (idx + 1) (level + 1) h
      simp only [List.length_cons]
      omega
    · split at h
      · split at h
        · simp only [Option.some.injEq] at h
          simp only [List.length_cons]
          omega
        · have := ih (idx + 1) (level - 1) h
          simp only [List.length_cons]
          omega
      · have := ih (idx + 1) level h
        simp only [List.length_cons]
        omega

/-- A matching close brace lies strictly after its open brace and strictly
inside the text. -/
theorem findMatchingBrace_bounds (text : PyStr) (openPos j : Nat)
    (h : findMatchingBrace text openPos = some j) :
    openPos < j ∧ j < text.length := by
  unfold findMatchingBrace at h
  split at h
  · rename_i c rest hdrop
    split at h
    · rename_i hc
      subst hc
      simp only [findCloseGo, if_pos rfl] at h
      have hb := findCloseGo_bounds rest (openPos + 1) 1 j h
      have hlen : (text.drop openPos).length = text.length - openPos := List.length_drop ..
      rw [hdrop] at hlen
      simp only [List.length_cons] at hlen
      omega
    · exact absurd h (by simp)
  · exact absurd h (by simp)

/-- Bold-wrapping string prepended to an unemphasized title. -/
def textbfOpen : PyStr := "\\textbf\x7b".toList

/-- The bfseries marker searched for inside a normalized title. -/
def bfseriesTok : PyStr := "\\bfseries".toList

/-- Title-processing loop of ensure_section_title_bold over the list of
match positions: parts accumulated so far are returned as one string,
together with the final cursor and whether any match was processed (the
Python code tests whether out_parts is empty). -/
def processSectionMatches (text : PyStr) : List Nat → Nat → PyStr × Nat × Bool
  | [], cursor => ([], cursor, false)
  | openPos :: ms, cursor =>
    match findMatchingBrace text openPos with
    | none => processSectionMatches text ms cursor
    | some closePos =>
      let title := (text.take closePos).drop (openPos + 1)
      let normalized := title.filter (fun c => ¬(c = ' ' ∨ c = '\n'))
      let newTitle :=
        if containsSub normalized textbfOpen ∨ containsSub normalized bfseriesTok then title
        else textbfOpen ++ title ++ [rbrace]
      let pre := (text.take (openPos + 1)).drop cursor
      let rest := processSectionMatches text ms closePos
      (pre ++ newTitle ++ rest.1, rest.2.1, true)

/-- Embedding of ensure_section_title_bold of splitter.py
(processSectionMatches is pure, so the repeated projections read the one
result the Python code binds locally). -/
def ensure_section_title_bold (text : PyStr) : PyStr :=
  if text = [] then text
  else if (processSectionMatches text (sectionScan text 0) 0).2.2 = false then text
  else (processSectionMatches text (sectionScan text 0) 0).1 ++
    text.drop (processSectionMatches text (sectionScan text 0) 0).2.1

/-- Result of one _run_command subprocess invocation of compiler.py: the
return code (124 for a timeout), the timeout flag and the captured combined
output.  The subprocess itself is an external collaborator; its results
enter compile_latex_project as parameters. -/
structure RunResult where
  returncode : Int
  timed_out : Bool
  output : PyStr
deriving Repr, DecidableEq

/-- Lowercase pattern text of the fatal-error regex of compile_latex_project. -/
def emergencyPat : PyStr := "emergency stop.".toList

/-- Match of the emergency-stop pattern at the head of a suffix: an
exclamation mark, any whitespace, then the phrase compared case-insensitively. -/
def matchEmergencyHere : PyStr → Bool
  | [] => false
  | c :: rest => c = '!' && isPrefixOfCaseless emergencyPat (rest.dropWhile pyIsSpace)

/-- Scan for the emergency-stop pattern at every line start (position zero
or a position preceded by a newline, as the multiline anchor matches). -/
def hasEmergencyGo (prev : Option Char) : PyStr → Bool
  | [] => false
  | c :: rest =>
    ((match prev with | none => true | some p => p = '\n') && matchEmergencyHere (c :: rest))
      || hasEmergencyGo (some c) rest

/-- Embedding of the emergency-stop search of compile_latex_project:
a multiline case-insensitive search for a line starting with an exclamation
mark, whitespace and the words emergency stop with a period. -/
def hasEmergencyStop (s : PyStr) : Bool := hasEmergencyGo none s

/-- CompileResult holds the computational fields of the dictionary returned
by compile_latex_project.  The path-valued fields (compiler, pdf_path,
log_path) are filesystem handles and the first_error diagnosis is computed
by parse_first_latex_error; none of them enters compile_ok. -/
structure CompileResult where
  pdf_exists : Bool
  compile_ok : Bool
  has_emergency_stop : Bool
  return_codes : List Int
  timed_out : Bool
deriving Repr, DecidableEq

/-- The invocation sequence of one compile attempt in compile_latex_project:
the first compiler run, the bibtex run when an aux file exists and no
pre-existing bibliography is being kept, then the second and third compiler
runs. -/
def attemptRuns (auxExists keepExistingBbl : Bool) (first bib second third : RunResult) :
    List RunResult :=
  [first] ++ (if auxExists ∧ ¬keepExistingBbl then [bib] else []) ++ [second, third]

/-- Embedding of compile_latex_project of compiler.py.  Filesystem and
subprocess effects are parameters: pdfSizeBytes is the size of the output
PDF when it exists (none when missing), auxExists and keepExistingBbl
reflect the aux-file test and _bbl_has_entries, and the RunResult arguments
are the outcomes of the (up to four) subprocess invocations.  The combined
attempt log is the newline join of the captured outputs, exactly as the
Python code joins attempt_log_chunks. -/
def compile_latex_project (pdfSizeBytes : Option Nat) (auxExists keepExistingBbl : Bool)
    (first bib second third : RunResult) : CompileResult :=
  let runs := attemptRuns auxExists keepExistingBbl first bib second third
  let return_codes := runs.map RunResult.returncode
  let log_text := joinNewline (runs.map RunResult.output)
  let pdf_exists := match pdfSizeBytes with | some n => decide (0 < n) | none => false
  let has_emergency_stop := hasEmergencyStop log_text
  let last_ok := decide (return_codes.getLast? = some 0)
  { pdf_exists := pdf_exists,
    compile_ok := pdf_exists && last_ok && !has_emergency_stop,
    has_emergency_stop := has_emergency_stop,
    return_codes := return_codes,
    timed_out := runs.any RunResult.timed_out }

/-- TranslatorConfig mirrors the dataclass of translator.py. -/
structure TranslatorConfig where
  api_key : PyStr
  base_url : PyStr
  model : PyStr
  target_language : PyStr
  concurrency : Nat
  timeout_sec : Nat

/-- Failure cases of translate_chunks (the Python code raises RuntimeError
with a message for each). -/
inductive TranslateError where
  | missingApiKey
  | missingModel
  | chunkFailed
deriving Repr, DecidableEq

/-- Retry loop of _translate_one_chunk of translator.py.  The model call is
the external parameter call: attempt number to optional raw response text
(none models a transport or model error, which the Python code catches and
retries).  An empty response after stripping raises and is retried the same
way; a successful response is normalized before being returned. -/
def translateAttemptLoop (call : Nat → Option PyStr) (attempt retries : Nat) : Option PyStr :=
  if retries < attempt then none
  else
    match call attempt with
    | some resp =>
      let content := pyStrip resp
      if content = [] then translateAttemptLoop call (attempt + 1) retries
      else some (normalize_llm_translated_chunk content)
    | none => translateAttemptLoop call (attempt + 1) retries
termination_by retries + 1 - attempt
decreasing_by all_goals omega

/-- Embedding of _translate_one_chunk of translator.py with its default of
three attempts. -/
def translate_one_chunk (call : Nat → Option PyStr) : Option PyStr :=
  translateAttemptLoop call 1 3

/-- Aggregation of per-chunk results in index order.  The Python code runs
the workers concurrently under a semaphore and writes each result into
translated at the chunk's own index, so the value of entry i depends only on
chunk i regardless of completion order; the sequential recursion here
produces that same index-directed assignment.  A failed chunk makes the
whole gather fail, as the exception propagates out of asyncio.gather. -/
def gatherTranslations (call : Nat → Nat → Option PyStr) :
    Nat → List PyStr → Except TranslateError (List PyStr)
  | _, [] => .ok []
  | i, _chunk :: rest =>
    match translate_one_chunk (call i) with
    | none => .error .chunkFailed
    | some r =>
      match gatherTranslations call (i + 1) rest with
      | .ok rs => .ok (r :: rs)
      | .error e => .error e

/-- Embedding of translate_chunks of translator.py.  The parameter call
models the chat-completion backend: chunk index and attempt number to
optional response.  Client construction, the semaphore and the progress
callback are effects without influence on the returned list. -/
def translate_chunks (call : Nat → Nat → Option PyStr) (chunks : List PyStr)
    (cfg : TranslatorConfig) : Except TranslateError (List PyStr) :=
  if cfg.api_key = [] then .error .missingApiKey
  else if cfg.model = [] then .error .missingModel
  else if chunks = [] then .ok []
  else gatherTranslations call 0 chunks

/-- SegState mirrors the per-segment dictionaries held in a file state of
service.py: the immutable original text, the mutable current text, the
translatable flag and the (recomputable) line range. -/
structure SegState where
  original : PyStr
  current : PyStr
  translatable : Bool
  start_line : Nat
  end_line : Nat
deriving Repr, DecidableEq

/-- Revert predicate of the window pass of _repair_file_state: translatable,
currently translated (current differs from original), and the line range
intersects the window lo..hi. -/
def segQualifies (lo hi : Nat) (s : SegState) : Bool :=
  s.translatable && s.current ≠ s.original && ¬(s.end_line < lo ∨ hi < s.start_line)

/-- Candidate predicate of the fallback pass: translatable and currently
translated. -/
def segIsCandidate (s : SegState) : Bool :=
  s.translatable && s.current ≠ s.original

/-- Revert of one segment: current becomes original again. -/
def revertSeg (s : SegState) : SegState := { s with current := s.original }

/-- The _distance key of _repair_file_state: zero inside the range,
otherwise the gap to the nearer end. -/
def segDistance (line : Nat) (s : SegState) : Nat :=
  if s.start_line ≤ line ∧ line ≤ s.end_line then 0
  else if line < s.start_line then s.start_line - line
  else line - s.end_line

/-- Python min over a nonempty candidate list with a key: the first element
attaining the minimal key, here carrying original indices. -/
def firstMinSeg (f : SegState → Nat) : List (Nat × SegState) → Option (Nat × SegState)
  | [] => none
  | p :: rest => some (rest.foldl (fun best q => if f q.2 < f best.2 then q else best) p)

/-- Embedding of _recompute_segment_lines of service.py: line ranges are
rebuilt from the current texts with a running cursor starting at one. -/
def recomputeSegmentLines : List SegState → Nat → List SegState
  | [], _ => []
  | s :: rest, cursor =>
    { s with start_line := cursor, end_line := cursor + s.current.count '\n' } ::
      recomputeSegmentLines rest (cursor + s.current.count '\n')

/-- Revert of exactly the segment at index j (the Python code mutates the
single dictionary object selected by min). -/
def revertAtIdx (j : Nat) (segs : List SegState) : List SegState :=
  segs.enum.map (fun p => if p.1 = j then revertSeg p.2 else p.2)

/-- Lower bound of the revert window of _repair_file_state:
lo = max(1, line - max(1, window)) with line = max(1, error_line). -/
def repairLo (error_line window : Nat) : Nat :=
  max 1 (max 1 error_line - max 1 window)

/-- Upper bound of the revert window of _repair_file_state:
hi = line + max(1, window). -/
def repairHi (error_line window : Nat) : Nat :=
  max 1 error_line + max 1 window

/-- Embedding of the segment-reverting core of _repair_file_state of
service.py, acting on the segment list of the file state that
_find_file_state resolved (file lookup, reassembly via
ensure_section_title_bold and the file write are outside this core).
The window pass and its revert count are expressed as map and countP over
the same pointwise predicate the loop checks.  Returns none when the Python
function returns False with the segments untouched (no candidate to
revert), otherwise the updated segment list after
_recompute_segment_lines. -/
def repair_file_state (segs : List SegState) (error_line window : Nat) :
    Option (List SegState) :=
  if segs.countP (segQualifies (repairLo error_line window) (repairHi error_line window)) = 0 then
    match firstMinSeg (segDistance (max 1 error_line))
        (segs.enum.filter (fun p => segIsCandidate p.2)) with
    | none => none
    | some p => some (recomputeSegmentLines (revertAtIdx p.1 segs) 1)
  else
    some (recomputeSegmentLines
      (segs.map (fun s =>
        if segQualifies (repairLo error_line window) (repairHi error_line window) s
        then revertSeg s else s)) 1)

/-! Theorems.  Each claim of the specification is settled below; helper
lemmas precede the claim theorems that use them. -/

/-- C4: compile_latex_project reports compile_ok exactly when the output
PDF exists with nonzero size, the last compiler invocation of the attempt
(the third compiler run, which always terminates the invocation sequence)
returned zero, and the attempt's combined log contains no fatal
emergency-stop line. -/
theorem compile_success_iff (pdfSizeBytes : Option Nat) (auxExists keepExistingBbl : Bool)
    (first bib second third : RunResult) :
    (compile_latex_project pdfSizeBytes auxExists keepExistingBbl first bib second third).compile_ok = true ↔
      ((∃ n, pdfSizeBytes = some n ∧ 0 < n) ∧ third.returncode = 0 ∧
        hasEmergencyStop (joinNewline
          ((attemptRuns auxExists keepExistingBbl first bib second third).map RunResult.output)) = false) := by
  unfold compile_latex_project
  by_cases hb : auxExists ∧ ¬keepExistingBbl
  · simp only [attemptRuns, if_pos hb]
    cases pdfSizeBytes with
    | none => simp
    | some n =>
      simp only [List.map, List.cons_append, List.nil_append]
      constructor
      · intro h
        simp only [Bool.and_eq_true, decide_eq_true_eq, Bool.not_eq_true'] at h
        refine ⟨⟨n, rfl, h.1.1⟩, ?_, h.2⟩
        have : ([first.returncode, bib.returncode, second.returncode, third.returncode].getLast? = some third.returncode) := rfl
        have h2 := h.1.2
        rw [this] at h2
        exact Option.some.inj h2
      · rintro ⟨⟨m, hm, hmpos⟩, hrc, hemg⟩
        obtain rfl : m = n := by injection hm.symm
        simp only [Bool.and_eq_true, decide_eq_true_eq, Bool.not_eq_true']
        refine ⟨⟨hmpos, ?_⟩, hemg⟩
        show ([first.returncode, bib.returncode, second.returncode, third.returncode].getLast? = some 0)
        rw [hrc]
        rfl
  · simp only [attemptRuns, if_neg hb]
    cases pdfSizeBytes with
    | none => simp
    | some n =>
      simp only [List.map, List.cons_append, List.nil_append]
      constructor
      · intro h
        simp only [Bool.and_eq_true, decide_eq_true_eq, Bool.not_eq_true'] at h
        refine ⟨⟨n, rfl, h.1.1⟩, ?_, h.2⟩
        have : ([first.returncode, second.returncode, third.returncode].getLast? = some third.returncode) := rfl
        have h2 := h.1.2
        rw [this] at h2
        exact Option.some.inj h2
      · rintro ⟨⟨m, hm, hmpos⟩, hrc, hemg⟩
        obtain rfl : m = n := by injection hm.symm
        simp only [Bool.and_eq_true, decide_eq_true_eq, Bool.not_eq_true']
        refine ⟨⟨hmpos, ?_⟩, hemg⟩
        show ([first.returncode, second.returncode, third.returncode].getLast? = some 0)
        rw [hrc]
        rfl

/-- C7: whenever the normalized model response contains one of the fixed
refusal or error signal substrings, guard_translated_segment returns the
original segment unchanged. -/
theorem guard_refusal_returns_original (original translated : PyStr)
    (h : bannedSignals.any
      (fun sig => containsSub (normalize_llm_translated_chunk translated) sig) = true) :
    guard_translated_segment original translated = original := by
  unfold guard_translated_segment
  have hc : guardCandidate original translated = none := by
    unfold guardCandidate
    by_cases h0 : normalize_llm_translated_chunk translated = []
    · simp [h0]
    · simp only [h0, if_neg, if_false]
      simp [h]
  rw [hc]

/-- Witness for C7 at a concrete refusal response. -/
theorem guard_refusal_witness :
    bannedSignals.any
      (fun sig => containsSub (normalize_llm_translated_chunk "Traceback: boom".toList) sig) = true ∧
    guard_translated_segment "hello world".toList "Traceback: boom".toList = "hello world".toList :=
  ⟨by decide, guard_refusal_returns_original "hello world".toList "Traceback: boom".toList (by decide)⟩

/-- Successful aggregation yields one entry per chunk, and entry k is the
retry-loop result for chunk index i + k, independent of any completion
order. -/
theorem gatherTranslations_ok (call : Nat → Nat → Option PyStr) :
    ∀ (chunks : List PyStr) (i : Nat) (res : List PyStr),
      gatherTranslations call i chunks = .ok res →
      res.length = chunks.length ∧
        ∀ k, k < chunks.length → res.get? k = translate_one_chunk (call (i + k)) := by
  intro chunks
  induction chunks with
  | nil =>
    intro i res h
    simp only [gatherTranslations] at h
    cases h
    exact ⟨rfl, by intro k hk; exact absurd hk (by simp)⟩
  | cons c rest ih =>
    intro i res h
    simp only [gatherTranslations] at h
    cases h1 : translate_one_chunk (call i) with
    | none => rw [h1] at h; exact absurd h (by simp)
    | some r =>
      rw [h1] at h
      cases h2 : gatherTranslations call (i + 1) rest with
      | error e => rw [h2] at h; exact absurd h (by simp)
      | ok rs =>
        rw [h2] at h
        cases h
        obtain ⟨hlen, hidx⟩ := ih (i + 1) rs h2
        refine ⟨by simp [hlen], ?_⟩
        intro k hk
        cases k with
        | zero => simpa using h1.symm
        | succ k2 =>
          simp only [List.get?_cons_succ]
          have heq : i + (k2 + 1) = (i + 1) + k2 := by omega
          rw [heq]
          exact hidx k2 (by simpa using hk)

/-- C6: translate_chunks fails immediately when the api key or the model
name is empty; the empty chunk list yields the empty result; and any
successful result has exactly one entry per chunk whose k-th element is the
per-chunk translation outcome for chunk k (output order equals input order;
the concurrent completion order only affects progress counting). -/
theorem translator_contract (call : Nat → Nat → Option PyStr) (cfg : TranslatorConfig)
    (chunks : List PyStr) :
    (cfg.api_key = [] → translate_chunks call chunks cfg = .error .missingApiKey) ∧
    (cfg.api_key ≠ [] → cfg.model = [] →
      translate_chunks call chunks cfg = .error .missingModel) ∧
    (cfg.api_key ≠ [] → cfg.model ≠ [] → translate_chunks call [] cfg = .ok []) ∧
    (∀ res, translate_chunks call chunks cfg = .ok res →
      res.length = chunks.length ∧
        ∀ k, k < chunks.length → res.get? k = translate_one_chunk (call k)) := by
  refine ⟨?_, ?_, ?_, ?_⟩
  · intro h
    simp [translate_chunks, h]
  · intro h1 h2
    simp [translate_chunks, h1, h2]
  · intro h1 h2
    simp [translate_chunks, h1, h2]
  · intro res h
    unfold translate_chunks at h
    split at h
    · exact absurd h (by simp)
    · split at h
      · exact absurd h (by simp)
      · split at h
        · rename_i hnil
          cases h
          subst hnil
          exact ⟨rfl, by intro k hk; exact absurd hk (by simp)⟩
        · have := gatherTranslations_ok call chunks 0 res h
          simpa using this

unseal translateAttemptLoop in
/-- Witness for C6: a concrete backend, config and chunk list; the api key
hypotheses are discharged and the result matches the per-chunk outcomes. -/
theorem translator_contract_witness :
    (("k".toList : PyStr) ≠ [] ∧ ("m".toList : PyStr) ≠ []) ∧
    (∃ res, translate_chunks (fun _ _ => some " bonjour ".toList)
        ["hello".toList, "world".toList]
        ⟨"k".toList, [], "m".toList, "fr".toList, 2, 120⟩ = .ok res ∧
      res.length = 2 ∧
        ∀ k, k < 2 → res.get? k = translate_one_chunk ((fun _ _ => some " bonjour ".toList) k)) :=
  ⟨⟨by decide, by decide⟩,
    ⟨["bonjour".toList, "bonjour".toList], rfl,
      (translator_contract (fun _ _ => some " bonjour ".toList)
        ⟨"k".toList, [], "m".toList, "fr".toList, 2, 120⟩
        ["hello".toList, "world".toList]).2.2.2 ["bonjour".toList, "bonjour".toList] rfl⟩⟩

/-- Concatenation of the text components of a chunk list. -/
def chunksText (chunks : List (PyStr × Bool)) : PyStr := (chunks.map Prod.fst).flatten

/-- Concatenation of the text fields of a segment list. -/
def concatSegTexts (segs : List LatexSegment) : PyStr := (segs.map LatexSegment.text).flatten

/-- Run extraction loses no characters: the chunk texts concatenate to the
character components of the input. -/
theorem chunksText_rawChunks : ∀ l : List (Char × Bool), chunksText (rawChunks l) = l.map Prod.fst
  | [] => by simp [rawChunks, chunksText]
  | (c, f) :: rest => by
    rw [rawChunks]
    have ih := chunksText_rawChunks (rest.dropWhile (fun p => p.2 == f))
    simp only [chunksText, List.map_cons, List.flatten_cons] at ih ⊢
    rw [ih, List.cons_append]
    congr 1
    rw [← List.map_append, List.takeWhile_append_dropWhile]
termination_by l => l.length
decreasing_by
  have := length_dropWhile_le_self (fun p => p.2 == f) rest
  simp_arith
  omega

/-- Demotion never changes a chunk's text. -/
theorem demoteShortChunk_fst (p : PyStr × Bool) : (demoteShortChunk p).1 = p.1 := by
  unfold demoteShortChunk
  by_cases h2 : p.2
  · rw [if_pos h2]
    by_cases hlen :
        (pyStrip (pyStripWith (fun c => c == '\n') p.1)).length < SHORT_SEGMENT_MIN_CHARS
    · simp only [hlen, if_true]
    · simp only [hlen, if_false]
  · rw [if_neg h2]

/-- Demotion preserves the concatenated text. -/
theorem chunksText_map_demote (l : List (PyStr × Bool)) :
    chunksText (l.map demoteShortChunk) = chunksText l := by
  induction l with
  | nil => rfl
  | cons p rest ih =>
    simp only [chunksText, List.map_cons, List.flatten_cons] at ih ⊢
    rw [ih, demoteShortChunk_fst]

/-- Merging adjacent chunks preserves the concatenated text. -/
theorem chunksText_merge : ∀ l : List (PyStr × Bool),
    chunksText (mergeAdjacentChunks l) = chunksText l
  | [] => by simp [mergeAdjacentChunks]
  | [p] => by simp [mergeAdjacentChunks]
  | p :: q :: rest => by
    rw [mergeAdjacentChunks]
    split
    · rw [chunksText_merge ((p.1 ++ q.1, q.2) :: rest)]
      simp [chunksText]
    · have ih := chunksText_merge (q :: rest)
      simp only [chunksText, List.map_cons, List.flatten_cons] at ih ⊢
      rw [ih]
termination_by l => l.length
decreasing_by all_goals simp_arith

/-- Post-processing preserves the concatenated text. -/
theorem chunksText_post_process (l : List (PyStr × Bool)) :
    chunksText (post_process_chunks l) = chunksText l := by
  unfold post_process_chunks
  rw [chunksText_merge, chunksText_map_demote]

/-- Line assignment preserves the chunk texts. -/
theorem concatSegTexts_assign (chunks : List (PyStr × Bool)) : ∀ cur : Nat,
    concatSegTexts (assignSegmentLines chunks cur) = chunksText chunks := by
  induction chunks with
  | nil => intro cur; rfl
  | cons p rest ih =>
    intro cur
    obtain ⟨t, f⟩ := p
    have h := ih (cur + t.count '\n')
    unfold concatSegTexts chunksText at h ⊢
    simp only [assignSegmentLines, List.map_cons, List.flatten_cons]
    rw [h]

/-- Round trip of segment_latex_text for any per-character mask builder. -/
theorem concat_segment_latex_text (buildMask : PyStr → List Bool) (text : PyStr)
    (hmask : (buildMask text).length = text.length) :
    concatSegTexts (segment_latex_text buildMask text) = text := by
  unfold segment_latex_text
  split
  · rename_i h
    rw [h]
    rfl
  · rw [concatSegTexts_assign, chunksText_post_process, chunksText_rawChunks]
    exact List.map_fst_zip text (buildMask text) (by omega)

/-- Recursive token-limit bisection loses no characters. -/
theorem split_text_concat : ∀ (t : PyStr) (m : Nat),
    (split_text_to_token_limit t m).flatten = t := by
  intro t m
  rw [split_text_to_token_limit]
  by_cases h0 : t = []
  · rw [if_pos h0, h0]
    rfl
  · rw [if_neg h0]
    by_cases h1 : estimate_token_count t ≤ m
    · rw [if_pos h1]
      simp
    · rw [if_neg h1]
      show (if h : t.take (chosen_split_index t m) = [] ∨ t.drop (chosen_split_index t m) = []
        then [t]
        else split_text_to_token_limit (t.take (chosen_split_index t m)) m ++
          split_text_to_token_limit (t.drop (chosen_split_index t m)) m).flatten = t
      by_cases hne : t.take (chosen_split_index t m) = [] ∨ t.drop (chosen_split_index t m) = []
      · rw [dif_pos hne]
        simp
      · rw [dif_neg hne]
        rw [List.flatten_append, split_text_concat, split_text_concat,
          List.take_append_drop]
termination_by t _ => t.length
decreasing_by
  · push_neg at hne
    obtain ⟨h1, h2⟩ := hne
    have hs1 : ¬(chosen_split_index t m = 0 ∨ t = []) :=
      fun hc => h1 (List.take_eq_nil_iff.mpr hc)
    have hs2 : ¬(t.length ≤ chosen_split_index t m) :=
      fun hc => h2 (List.drop_eq_nil_iff.mpr hc)
    push_neg at hs1
    simp only [List.length_take]
    omega
  · push_neg at hne
    obtain ⟨h1, h2⟩ := hne
    have hs1 : ¬(chosen_split_index t m = 0 ∨ t = []) :=
      fun hc => h1 (List.take_eq_nil_iff.mpr hc)
    push_neg at hs1
    have : 0 < t.length := List.length_pos.mpr hs1.2
    simp only [List.length_drop]
    omega

/-- Chunk-line assignment for split pieces preserves the texts. -/
theorem concatSegTexts_assignChunks (chunks : List PyStr) : ∀ cur : Nat,
    concatSegTexts (assignChunkLines chunks cur) = chunks.flatten := by
  induction chunks with
  | nil => intro cur; rfl
  | cons c rest ih =>
    intro cur
    have h := ih (cur + c.count '\n')
    unfold concatSegTexts at h ⊢
    simp only [assignChunkLines, List.map_cons, List.flatten_cons]
    rw [h]

/-- The token-limit pass preserves the concatenated segment text. -/
theorem concat_split_translatable (segs : List LatexSegment) (mt : Nat) :
    concatSegTexts (split_translatable_segments_by_token_limit segs mt) = concatSegTexts segs := by
  unfold split_translatable_segments_by_token_limit concatSegTexts
  induction segs with
  | nil => rfl
  | cons s rest ih =>
    simp only [List.map_cons, List.flatten_cons, List.map_append, List.flatten_append] at ih ⊢
    rw [ih]
    congr 1
    split
    · simp
    · have h2 := concatSegTexts_assignChunks
        (split_text_to_token_limit s.text (max 256 mt)) s.start_line
      unfold concatSegTexts at h2
      rw [h2, split_text_concat]

/-- C1: concatenating the segment texts returned by segment_latex_text
reproduces the input exactly; empty input yields the empty segment list;
and the same concatenation identity holds for build_translation_segments
at any token budget.  The mask builder is any function producing one
boolean per character, as the regex mask construction of splitter.py
does. -/
theorem segmentation_round_trip (buildMask : PyStr → List Bool) (text : PyStr)
    (max_tokens : Nat) (hmask : (buildMask text).length = text.length) :
    concatSegTexts (segment_latex_text buildMask text) = text ∧
    (text = [] → segment_latex_text buildMask text = []) ∧
    concatSegTexts (build_translation_segments buildMask text max_tokens) = text := by
  refine ⟨concat_segment_latex_text buildMask text hmask, ?_, ?_⟩
  · intro h
    unfold segment_latex_text
    rw [if_pos h]
  · unfold build_translation_segments
    rw [concat_split_translatable]
    exact concat_segment_latex_text buildMask text hmask

/-- Witness for C1 on a concrete prose text with the all-translatable mask
(the mask the source's rule stack computes for text free of backslash,
dollar and percent characters). -/
theorem segmentation_round_trip_witness :
    (allTranslatableMask "Lorem ipsum dolor sit amet.".toList).length =
      "Lorem ipsum dolor sit amet.".toList.length ∧
    (concatSegTexts (segment_latex_text allTranslatableMask "Lorem ipsum dolor sit amet.".toList) =
      "Lorem ipsum dolor sit amet.".toList ∧
    ("Lorem ipsum dolor sit amet.".toList = ([] : PyStr) →
      segment_latex_text allTranslatableMask "Lorem ipsum dolor sit amet.".toList = []) ∧
    concatSegTexts
        (build_translation_segments allTranslatableMask "Lorem ipsum dolor sit amet.".toList 1024) =
      "Lorem ipsum dolor sit amet.".toList) :=
  ⟨by decide,
    segmentation_round_trip allTranslatableMask "Lorem ipsum dolor sit amet.".toList 1024 (by decide)⟩

/-- Line-chaining predicate: starting from cursor cur, every segment starts
at the running cursor, ends after exactly its newline count, and hands its
end line to the next segment. -/
def chainOkB : Nat → List LatexSegment → Bool
  | _, [] => true
  | cur, s :: rest =>
    decide (s.start_line = cur) &&
      decide (s.end_line = s.start_line + s.text.count '\n') &&
      chainOkB s.end_line rest

/-- Line assignment always satisfies the chaining predicate. -/
theorem chainOkB_assign (chunks : List (PyStr × Bool)) : ∀ cur : Nat,
    chainOkB cur (assignSegmentLines chunks cur) = true := by
  induction chunks with
  | nil => intro cur; rfl
  | cons p rest ih =>
    intro cur
    obtain ⟨t, f⟩ := p
    simp only [assignSegmentLines, chainOkB, Bool.and_eq_true, decide_eq_true_eq]
    exact ⟨⟨by trivial, by trivial⟩, ih (cur + t.count '\n')⟩

/-- Run extraction of a nonempty list is nonempty. -/
theorem rawChunks_ne_nil (l : List (Char × Bool)) (h : l ≠ []) : rawChunks l ≠ [] := by
  match l with
  | [] => exact absurd rfl h
  | (c, f) :: rest =>
    rw [rawChunks]
    simp

/-- Merging a nonempty chunk list yields a nonempty list. -/
theorem mergeAdjacentChunks_ne_nil : ∀ l : List (PyStr × Bool), l ≠ [] →
    mergeAdjacentChunks l ≠ []
  | [], h => absurd rfl h
  | [p], _ => by rw [mergeAdjacentChunks]; simp
  | p :: q :: rest, _ => by
    rw [mergeAdjacentChunks]
    split
    · exact mergeAdjacentChunks_ne_nil _ (by simp)
    · simp
termination_by l => l.length
decreasing_by all_goals simp_arith

/-- C9: for nonempty input the segment list of segment_latex_text is
nonempty, its first segment starts at line one, every segment's end line is
its start line plus its newline count, and every later segment starts at
the previous segment's end line. -/
theorem segment_line_chaining (buildMask : PyStr → List Bool) (text : PyStr)
    (hmask : (buildMask text).length = text.length) (htext : text ≠ []) :
    segment_latex_text buildMask text ≠ [] ∧
    chainOkB 1 (segment_latex_text buildMask text) = true := by
  unfold segment_latex_text
  rw [if_neg htext]
  constructor
  · have hzip : text.zip (buildMask text) ≠ [] := by
      intro hz
      have hlen := congrArg List.length hz
      rw [List.length_zip, hmask] at hlen
      have := List.length_pos.mpr htext
      simp only [List.length_nil, Nat.min_self] at hlen
      omega
    have hpost : post_process_chunks (rawChunks (text.zip (buildMask text))) ≠ [] := by
      unfold post_process_chunks
      refine mergeAdjacentChunks_ne_nil _ ?_
      simpa using rawChunks_ne_nil _ hzip
    cases h : post_process_chunks (rawChunks (text.zip (buildMask text))) with
    | nil => exact absurd h hpost
    | cons x xs =>
      obtain ⟨t, f⟩ := x
      simp [assignSegmentLines]
  · exact chainOkB_assign _ 1

/-- Witness for C9 on concrete nonempty prose text. -/
theorem segment_line_chaining_witness :
    ((allTranslatableMask "A small prose paragraph.".toList).length =
        "A small prose paragraph.".toList.length ∧
      "A small prose paragraph.".toList ≠ ([] : PyStr)) ∧
    (segment_latex_text allTranslatableMask "A small prose paragraph.".toList ≠ [] ∧
      chainOkB 1 (segment_latex_text allTranslatableMask "A small prose paragraph.".toList) = true) :=
  ⟨⟨by decide, by decide⟩,
    segment_line_chaining allTranslatableMask "A small prose paragraph.".toList
      (by decide) (by decide)⟩

/-- The core text of a run, as the demotion check computes it: the text
stripped of surrounding newlines, then of surrounding whitespace. -/
def coreText (t : PyStr) : PyStr := pyStrip (pyStripWith (fun c => c == '\n') t)

/-- Adjacent chunks carry different flags (runs alternate). -/
def noAdjacentSameFlag : List (PyStr × Bool) → Prop
  | [] => True
  | [_] => True
  | p :: q :: rest => p.2 ≠ q.2 ∧ noAdjacentSameFlag (q :: rest)

/-- No two adjacent chunks are both translatable. -/
def noTwoAdjacentTrue : List (PyStr × Bool) → Prop
  | [] => True
  | [_] => True
  | p :: q :: rest => ¬(p.2 = true ∧ q.2 = true) ∧ noTwoAdjacentTrue (q :: rest)

/-- The head of a dropWhile result falsifies the predicate. -/
theorem dropWhile_head_false {α} (p : α → Bool) (l : List α) (x : α) (xs : List α)
    (h : l.dropWhile p = x :: xs) : p x = false := by
  induction l with
  | nil => simp [List.dropWhile] at h
  | cons a rest ih =>
    simp only [List.dropWhile] at h
    split at h
    · exact ih h
    · rename_i hpa
      cases h
      simpa using hpa

/-- Run extraction produces alternating flags. -/
theorem rawChunks_alt : ∀ l : List (Char × Bool), noAdjacentSameFlag (rawChunks l)
  | [] => by rw [rawChunks]; trivial
  | (c, f) :: rest => by
    rw [rawChunks]
    cases hd : rest.dropWhile (fun p => p.2 == f) with
    | nil =>
      rw [rawChunks]
      trivial
    | cons x xs =>
      have ih := rawChunks_alt (rest.dropWhile (fun p => p.2 == f))
      rw [hd] at ih
      obtain ⟨c2, f2⟩ := x
      rw [rawChunks] at ih ⊢
      refine ⟨?_, ih⟩
      have hflag := dropWhile_head_false (fun p => p.2 == f) rest (c2, f2) xs hd
      simp only [beq_eq_false_iff_ne, ne_eq] at hflag
      simpa using fun he : f = f2 => hflag he.symm
termination_by l => l.length
decreasing_by
  all_goals
    have := length_dropWhile_le_self (fun p => p.2 == f) rest
    simp_arith
    omega

/-- A chunk that survives demotion as translatable was translatable before. -/
theorem demote_snd_true (p : PyStr × Bool) (h : (demoteShortChunk p).2 = true) :
    p.2 = true := by
  unfold demoteShortChunk at h
  by_cases h2 : p.2
  · exact h2
  · rw [if_neg h2] at h
    exact absurd h h2

/-- A chunk that survives demotion as translatable has a core of at least
the minimum length. -/
theorem demote_true_core (p : PyStr × Bool) (h : (demoteShortChunk p).2 = true) :
    SHORT_SEGMENT_MIN_CHARS ≤ (coreText (demoteShortChunk p).1).length := by
  unfold demoteShortChunk at h ⊢
  by_cases h2 : p.2
  · rw [if_pos h2] at h ⊢
    by_cases hlen :
        (pyStrip (pyStripWith (fun c => c == '\n') p.1)).length < SHORT_SEGMENT_MIN_CHARS
    · rw [if_pos hlen] at h
      exact absurd h (by simp)
    · rw [if_neg hlen]
      unfold coreText
      omega
  · rw [if_neg h2] at h
    exact absurd h h2

/-- Alternating flags imply that after demotion no two adjacent chunks are
both translatable. -/
theorem noAdjTrue_of_alt : ∀ l : List (PyStr × Bool),
    noAdjacentSameFlag l → noTwoAdjacentTrue (l.map demoteShortChunk)
  | [] => by intro _; trivial
  | [p] => by intro _; simp only [List.map_cons, List.map_nil]; trivial
  | p :: q :: rest => by
    intro h
    obtain ⟨hne, hrest⟩ := h
    have ih := noAdjTrue_of_alt (q :: rest) hrest
    simp only [List.map_cons] at ih ⊢
    exact ⟨fun hboth => hne ((demote_snd_true p hboth.1).trans (demote_snd_true q hboth.2).symm),
      ih⟩

/-- Dropping the head preserves the no-two-adjacent-true property. -/
theorem noTwoAdjTrue_tail (x : PyStr × Bool) (xs : List (PyStr × Bool))
    (h : noTwoAdjacentTrue (x :: xs)) : noTwoAdjacentTrue xs := by
  cases xs with
  | nil => trivial
  | cons y ys => exact h.2

/-- Merging preserves any property C of translatable chunk texts, provided
no two adjacent chunks are both translatable (so translatable chunks are
never merged). -/
theorem merge_true_elem (C : PyStr → Prop) : ∀ l : List (PyStr × Bool),
    (∀ p ∈ l, p.2 = true → C p.1) → noTwoAdjacentTrue l →
    ∀ q ∈ mergeAdjacentChunks l, q.2 = true → C q.1
  | [] => by
    intro _ _ q hq
    rw [mergeAdjacentChunks] at hq
    simp at hq
  | [p] => by
    intro hall _ r hr hrt
    rw [mergeAdjacentChunks] at hr
    simp only [List.mem_singleton] at hr
    subst hr
    exact hall _ (by simp) hrt
  | p :: q :: rest => by
    intro hall hadj r hr hrt
    rw [mergeAdjacentChunks] at hr
    split at hr
    · rename_i heq
      have hpq : p.2 = q.2 := by simpa using heq
      have hqf : q.2 = false := by
        cases hq2 : q.2 with
        | false => rfl
        | true => exact absurd ⟨hpq.trans hq2, hq2⟩ hadj.1
      refine merge_true_elem C ((p.1 ++ q.1, q.2) :: rest) ?_ ?_ r hr hrt
      · intro x hx hxt
        rcases List.mem_cons.mp hx with hx1 | hx2
        · subst hx1
          exact absurd hxt (by simp [hqf])
        · exact hall x (by simp [hx2]) hxt
      · cases rest with
        | nil => trivial
        | cons r2 rest2 =>
          exact ⟨fun hb => absurd hb.1 (by simp [hqf]), hadj.2.2⟩
    · rcases List.mem_cons.mp hr with hr1 | hr2
      · subst hr1
        exact hall r (by simp) hrt
      · exact merge_true_elem C (q :: rest) (fun x hx => hall x (by simp [hx]))
          hadj.2 r hr2 hrt
termination_by l => l.length
decreasing_by all_goals simp_arith

/-- Every segment produced by line assignment has its text and flag among
the input chunks. -/
theorem mem_assignSegmentLines : ∀ (chunks : List (PyStr × Bool)) (cur : Nat)
    (seg : LatexSegment), seg ∈ assignSegmentLines chunks cur →
    (seg.text, seg.translatable) ∈ chunks := by
  intro chunks
  induction chunks with
  | nil => intro cur seg h; simp [assignSegmentLines] at h
  | cons p rest ih =>
    intro cur seg h
    obtain ⟨t, f⟩ := p
    simp only [assignSegmentLines, List.mem_cons] at h
    rcases h with h1 | h2
    · subst h1
      simp
    · exact List.mem_cons_of_mem _ (ih _ seg h2)

/-- C8: every translatable segment of segment_latex_text has a core text
(text stripped of surrounding newlines and whitespace) of length at least
SHORT_SEGMENT_MIN_CHARS: shorter translatable runs are demoted to protected
before adjacent same-flag runs are merged, and demotion-created protected
runs only ever merge with protected neighbours. -/
theorem short_run_demotion (buildMask : PyStr → List Bool) (text : PyStr) :
    ∀ seg ∈ segment_latex_text buildMask text, seg.translatable = true →
      SHORT_SEGMENT_MIN_CHARS ≤ (coreText seg.text).length := by
  intro seg hseg htr
  unfold segment_latex_text at hseg
  split at hseg
  · simp at hseg
  · have hmem := mem_assignSegmentLines _ _ _ hseg
    unfold post_process_chunks at hmem
    have halt := rawChunks_alt (text.zip (buildMask text))
    have hadj := noAdjTrue_of_alt _ halt
    have hall : ∀ p ∈ (rawChunks (text.zip (buildMask text))).map demoteShortChunk,
        p.2 = true → SHORT_SEGMENT_MIN_CHARS ≤ (coreText p.1).length := by
      intro p hp hpt
      obtain ⟨p0, _, rfl⟩ := List.mem_map.mp hp
      exact demote_true_core p0 hpt
    exact merge_true_elem (fun t => SHORT_SEGMENT_MIN_CHARS ≤ (coreText t).length)
      _ hall hadj (seg.text, seg.translatable) hmem (by simpa using htr)

unseal rawChunks mergeAdjacentChunks in
/-- Witness for C8 on a concrete prose text long enough to stay
translatable. -/
theorem short_run_demotion_witness :
    ((⟨"A reasonably long prose paragraph for the test.".toList, true, 1, 1⟩ : LatexSegment) ∈
        segment_latex_text allTranslatableMask
          "A reasonably long prose paragraph for the test.".toList ∧
      (⟨"A reasonably long prose paragraph for the test.".toList, true, 1, 1⟩ :
        LatexSegment).translatable = true) ∧
    SHORT_SEGMENT_MIN_CHARS ≤
      (coreText (⟨"A reasonably long prose paragraph for the test.".toList, true, 1, 1⟩ :
        LatexSegment).text).length :=
  ⟨⟨by decide, by decide⟩,
    short_run_demotion allTranslatableMask
      "A reasonably long prose paragraph for the test.".toList
      ⟨"A reasonably long prose paragraph for the test.".toList, true, 1, 1⟩
      (by decide) (by decide)⟩

/-- Every piece produced by the token-limit bisection fits the limit: at
every recursion step with an over-limit text the clamped split index lies in
the open interior (texts of length at most one are already within any
positive limit), so the recursion always reaches pieces within the limit. -/
theorem split_text_budget : ∀ (t : PyStr) (m : Nat), 1 ≤ m →
    ∀ u ∈ split_text_to_token_limit t m, estimate_token_count u ≤ m := by
  intro t m hm u hu
  rw [split_text_to_token_limit] at hu
  by_cases h0 : t = []
  · rw [if_pos h0] at hu
    simp at hu
  · rw [if_neg h0] at hu
    by_cases h1 : estimate_token_count t ≤ m
    · rw [if_pos h1] at hu
      simp only [List.mem_singleton] at hu
      subst hu
      exact h1
    · rw [if_neg h1] at hu
      have hu2 : u ∈ (if h : t.take (chosen_split_index t m) = [] ∨
          t.drop (chosen_split_index t m) = [] then [t]
        else split_text_to_token_limit (t.take (chosen_split_index t m)) m ++
          split_text_to_token_limit (t.drop (chosen_split_index t m)) m) := hu
      by_cases hne : t.take (chosen_split_index t m) = [] ∨
          t.drop (chosen_split_index t m) = []
      · exfalso
        have hpos := List.length_pos.mpr h0
        rcases hne with htake | hdrop
        · rcases List.take_eq_nil_iff.mp htake with hsi | ht
          · have hlen1 : t.length ≤ 1 := by
              unfold chosen_split_index at hsi
              omega
            have hdiv : t.length / 4 = 0 := Nat.div_eq_of_lt (by omega)
            have hest : estimate_token_count t = 1 := by
              unfold estimate_token_count
              rw [hdiv]
              rfl
            exact h1 (hest ▸ hm)
          · exact h0 ht
        · have hle := List.drop_eq_nil_iff.mp hdrop
          unfold chosen_split_index at hle
          omega
      · rw [dif_neg hne] at hu2
        rcases List.mem_append.mp hu2 with h | h
        · exact split_text_budget _ m hm u h
        · exact split_text_budget _ m hm u h
termination_by t _ => t.length
decreasing_by
  · push_neg at hne
    obtain ⟨ha, hb⟩ := hne
    have hs1 : ¬(chosen_split_index t m = 0 ∨ t = []) :=
      fun hc => ha (List.take_eq_nil_iff.mpr hc)
    have hs2 : ¬(t.length ≤ chosen_split_index t m) :=
      fun hc => hb (List.drop_eq_nil_iff.mpr hc)
    push_neg at hs1
    simp only [List.length_take]
    omega
  · push_neg at hne
    obtain ⟨ha, hb⟩ := hne
    have hs1 : ¬(chosen_split_index t m = 0 ∨ t = []) :=
      fun hc => ha (List.take_eq_nil_iff.mpr hc)
    push_neg at hs1
    have : 0 < t.length := List.length_pos.mpr hs1.2
    simp only [List.length_drop]
    omega

/-- Every segment produced by chunk-line assignment has its text among the
pieces. -/
theorem mem_assignChunkLines : ∀ (chunks : List PyStr) (cur : Nat) (seg : LatexSegment),
    seg ∈ assignChunkLines chunks cur → seg.text ∈ chunks := by
  intro chunks
  induction chunks with
  | nil => intro cur seg h; simp [assignChunkLines] at h
  | cons c rest ih =>
    intro cur seg h
    simp only [assignChunkLines, List.mem_cons] at h
    rcases h with h1 | h2
    · subst h1
      simp
    · exact List.mem_cons_of_mem _ (ih _ seg h2)

/-- C3 amended: the token budget is enforced against the clamped limit
max(256, max_tokens) (split_translatable_segments_by_token_limit computes
token_limit = max(256, int(max_tokens))): every translatable segment of
build_translation_segments has estimated token count at most that clamped
limit; under the length-quarter estimator no indivisible-run exception is
needed.  The stated bound max_tokens itself does not hold for budgets below
256 (see the counterexample). -/
theorem token_budget_amended (buildMask : PyStr → List Bool) (text : PyStr)
    (max_tokens : Nat) :
    ∀ seg ∈ build_translation_segments buildMask text max_tokens,
      seg.translatable = true → estimate_token_count seg.text ≤ max 256 max_tokens := by
  intro seg hseg htr
  unfold build_translation_segments split_translatable_segments_by_token_limit at hseg
  obtain ⟨piece, hpiece, hsegin⟩ := List.mem_flatten.mp hseg
  obtain ⟨s, _, rfl⟩ := List.mem_map.mp hpiece
  by_cases hc : ¬s.translatable = true ∨ estimate_token_count s.text ≤ max 256 max_tokens
  · rw [if_pos hc] at hsegin
    simp only [List.mem_singleton] at hsegin
    subst hsegin
    rcases hc with hnt | hb
    · exact absurd htr hnt
    · exact hb
  · rw [if_neg hc] at hsegin
    have hmem := mem_assignChunkLines _ _ _ hsegin
    exact split_text_budget s.text (max 256 max_tokens) (by omega) seg.text hmem

unseal rawChunks mergeAdjacentChunks in
/-- Witness for C3 amended: a concrete prose text at budget one; the
produced segment is translatable, within the clamped limit 256. -/
theorem token_budget_amended_witness :
    ((⟨"One sentence here. Another tiny sentence follows.".toList, true, 1, 1⟩ : LatexSegment) ∈
      build_translation_segments allTranslatableMask
        "One sentence here. Another tiny sentence follows.".toList 1 ∧
      (⟨"One sentence here. Another tiny sentence follows.".toList, true, 1, 1⟩ :
        LatexSegment).translatable = true) ∧
    estimate_token_count
      (⟨"One sentence here. Another tiny sentence follows.".toList, true, 1, 1⟩ :
        LatexSegment).text ≤ max 256 1 :=
  ⟨⟨by decide, by decide⟩,
    token_budget_amended allTranslatableMask
      "One sentence here. Another tiny sentence follows.".toList 1
      ⟨"One sentence here. Another tiny sentence follows.".toList, true, 1, 1⟩
      (by decide) (by decide)⟩

unseal rawChunks mergeAdjacentChunks in
/-- Counterexample to C3 as stated: for max_tokens = 1 the prose text below
(containing usable sentence separators, so no indivisible-run exception
applies) yields a translatable segment whose estimated token count exceeds
max_tokens, because the code clamps the budget to at least 256 and the
segment fits that floor. -/
theorem token_budget_counterexample :
    ∃ seg ∈ build_translation_segments allTranslatableMask
        "One sentence here. Another tiny sentence follows.".toList 1,
      seg.translatable = true ∧ 1 < estimate_token_count seg.text ∧
        containsSub seg.text ". ".toList = true := by decide

/-- Line recomputation never touches the current texts. -/
theorem recompute_current : ∀ (l : List SegState) (cur : Nat),
    (recomputeSegmentLines l cur).map SegState.current = l.map SegState.current := by
  intro l
  induction l with
  | nil => intro cur; rfl
  | cons s rest ih =>
    intro cur
    simp only [recomputeSegmentLines, List.map_cons]
    rw [ih]

/-- Membership in enumFrom determines the indexed element. -/
theorem enumFrom_mem_get? : ∀ (l : List SegState) (n i : Nat) (a : SegState),
    (i, a) ∈ List.enumFrom n l → n ≤ i ∧ l.get? (i - n) = some a := by
  intro l
  induction l with
  | nil => intro n i a h; simp [List.enumFrom] at h
  | cons x xs ih =>
    intro n i a h
    simp only [List.enumFrom, List.mem_cons, Prod.mk.injEq] at h
    rcases h with ⟨rfl, rfl⟩ | h2
    · simp
    · obtain ⟨hle, hget⟩ := ih (n + 1) i a h2
      refine ⟨by omega, ?_⟩
      have : i - n = (i - (n + 1)) + 1 := by omega
      rw [this, List.get?_cons_succ]
      exact hget

/-- Every member occurs at some index of enumFrom. -/
theorem mem_enumFrom_of_mem : ∀ (l : List SegState) (n : Nat) (s : SegState),
    s ∈ l → ∃ i, (i, s) ∈ List.enumFrom n l := by
  intro l
  induction l with
  | nil => intro n s h; simp at h
  | cons x xs ih =>
    intro n s h
    rcases List.mem_cons.mp h with h1 | h2
    · exact ⟨n, by simp [List.enumFrom, h1]⟩
    · obtain ⟨i, hi⟩ := ih (n + 1) s h2
      exact ⟨i, by simp [List.enumFrom, hi]⟩

/-- The fold of the Python min picks an element of the candidate list whose
key is minimal, keeping the first minimum. -/
theorem foldl_min_spec (f : SegState → Nat) : ∀ (rest : List (Nat × SegState))
    (c : Nat × SegState),
    (rest.foldl (fun best q => if f q.2 < f best.2 then q else best) c) ∈ c :: rest ∧
    ∀ q ∈ c :: rest,
      f (rest.foldl (fun best q => if f q.2 < f best.2 then q else best) c).2 ≤ f q.2 := by
  intro rest
  induction rest with
  | nil =>
    intro c
    refine ⟨by simp [List.foldl], ?_⟩
    intro q hq
    simp only [List.foldl]
    rcases List.mem_cons.mp hq with h1 | h2
    · rw [h1]
    · simp at h2
  | cons r rs ih =>
    intro c
    simp only [List.foldl]
    obtain ⟨ihmem, ihmin⟩ := ih (if f r.2 < f c.2 then r else c)
    have haccle : f (if f r.2 < f c.2 then r else c).2 ≤ f c.2 ∧
        f (if f r.2 < f c.2 then r else c).2 ≤ f r.2 := by
      by_cases hcr : f r.2 < f c.2
      · rw [if_pos hcr]; omega
      · rw [if_neg hcr]; omega
    constructor
    · rcases List.mem_cons.mp ihmem with h1 | h2
      · rw [h1]
        by_cases hcr : f r.2 < f c.2
        · simp [hcr]
        · simp [hcr]
      · exact List.mem_cons_of_mem _ (List.mem_cons_of_mem _ h2)
    · intro q hq
      have hstep : f (rs.foldl (fun best q => if f q.2 < f best.2 then q else best)
          (if f r.2 < f c.2 then r else c)).2 ≤ f (if f r.2 < f c.2 then r else c).2 :=
        ihmin _ (by simp)
      rcases List.mem_cons.mp hq with h1 | h2
      · rw [h1]
        exact Nat.le_trans hstep haccle.1
      · rcases List.mem_cons.mp h2 with h3 | h4
        · rw [h3]
          exact Nat.le_trans hstep haccle.2
        · exact ihmin q (by simp [h4])

/-- The Python min over a nonempty candidate list returns a member with a
minimal key. -/
theorem firstMinSeg_spec (f : SegState → Nat) (l : List (Nat × SegState))
    (p : Nat × SegState) (h : firstMinSeg f l = some p) :
    p ∈ l ∧ ∀ q ∈ l, f p.2 ≤ f q.2 := by
  cases l with
  | nil => simp [firstMinSeg] at h
  | cons c rest =>
    simp only [firstMinSeg, Option.some.injEq] at h
    obtain ⟨hmem, hmin⟩ := foldl_min_spec f rest c
    rw [h] at hmem hmin
    exact ⟨hmem, hmin⟩

/-- firstMinSeg is none only on the empty list. -/
theorem firstMinSeg_none (f : SegState → Nat) (l : List (Nat × SegState))
    (h : firstMinSeg f l = none) : l = [] := by
  cases l with
  | nil => rfl
  | cons c rest => simp [firstMinSeg] at h

/-- Current texts after the window revert pass. -/
theorem map_current_revert_if (segs : List SegState) (lo hi : Nat) :
    ((segs.map (fun s => if segQualifies lo hi s then revertSeg s else s)).map
      SegState.current) =
      segs.map (fun s => if segQualifies lo hi s then s.original else s.current) := by
  rw [List.map_map]
  apply List.map_congr_left
  intro s _
  by_cases h : segQualifies lo hi s
  · simp [h, revertSeg]
  · simp [h]

/-- Current texts after the single-index fallback revert. -/
theorem map_current_revertAtIdx (segs : List SegState) (j : Nat) :
    (revertAtIdx j segs).map SegState.current =
      segs.enum.map (fun p => if p.1 = j then p.2.original else p.2.current) := by
  unfold revertAtIdx
  rw [List.map_map]
  apply List.map_congr_left
  intro p _
  by_cases h : p.1 = j
  · simp [h, revertSeg]
  · simp [h]

/-- C5: with an error at line L and window w (both at least one), the
repair pass reverts exactly the currently-translated segments whose line
range intersects the window [max(1, L-w), L+w]; when none intersects but a
translated segment exists, exactly one segment is reverted, it is a
translated candidate at a list index, and its distance to L is minimal
among all candidates; every other segment's current text is unchanged. -/
theorem repair_reverts_targeted (segs : List SegState) (L w : Nat)
    (hL : 1 ≤ L) (hw : 1 ≤ w) :
    ((∃ s ∈ segs, segQualifies (max 1 (L - w)) (L + w) s = true) →
      ∃ segs2, repair_file_state segs L w = some segs2 ∧
        segs2.map SegState.current =
          segs.map (fun s => if segQualifies (max 1 (L - w)) (L + w) s then s.original
            else s.current)) ∧
    ((∀ s ∈ segs, segQualifies (max 1 (L - w)) (L + w) s = false) →
      (∃ s ∈ segs, segIsCandidate s = true) →
      ∃ j sj segs2, repair_file_state segs L w = some segs2 ∧
        segs.get? j = some sj ∧ segIsCandidate sj = true ∧
        (∀ s ∈ segs, segIsCandidate s = true → segDistance L sj ≤ segDistance L s) ∧
        segs2.map SegState.current =
          segs.enum.map (fun p => if p.1 = j then p.2.original else p.2.current)) := by
  have hlo : repairLo L w = max 1 (L - w) := by unfold repairLo; omega
  have hhi : repairHi L w = L + w := by unfold repairHi; omega
  have hline : max 1 L = L := by omega
  constructor
  · rintro ⟨s, hs, hq⟩
    unfold repair_file_state
    rw [hlo, hhi]
    rw [if_neg ?hcnt]
    case hcnt =>
      have : 0 < segs.countP (segQualifies (max 1 (L - w)) (L + w)) :=
        List.countP_pos.mpr ⟨s, hs, by simpa using hq⟩
      omega
    refine ⟨_, rfl, ?_⟩
    rw [recompute_current, map_current_revert_if]
  · intro hnone hcand
    unfold repair_file_state
    rw [hlo, hhi]
    rw [if_pos ?hcnt0]
    case hcnt0 =>
      refine List.countP_eq_zero.mpr ?_
      intro a ha
      simp [hnone a ha]
    obtain ⟨s, hs, hcs⟩ := hcand
    obtain ⟨i, hi⟩ := mem_enumFrom_of_mem segs 0 s hs
    have hfil : (i, s) ∈ segs.enum.filter (fun p => segIsCandidate p.2) :=
      List.mem_filter.mpr ⟨hi, by simpa using hcs⟩
    cases hmin : firstMinSeg (segDistance (max 1 L))
        (segs.enum.filter (fun p => segIsCandidate p.2)) with
    | none =>
      exfalso
      have := firstMinSeg_none _ _ hmin
      rw [this] at hfil
      simp at hfil
    | some p =>
      obtain ⟨hpmem, hpmin⟩ := firstMinSeg_spec _ _ _ hmin
      obtain ⟨hpen, hpcand⟩ := List.mem_filter.mp hpmem
      obtain ⟨_, hpget⟩ := enumFrom_mem_get? segs 0 p.1 p.2 hpen
      refine ⟨p.1, p.2, _, rfl, by simpa using hpget, by simpa using hpcand, ?_, ?_⟩
      · intro s2 hs2 hcs2
        obtain ⟨i2, hi2⟩ := mem_enumFrom_of_mem segs 0 s2 hs2
        have hfil2 : (i2, s2) ∈ segs.enum.filter (fun q => segIsCandidate q.2) :=
          List.mem_filter.mpr ⟨hi2, by simpa using hcs2⟩
        have := hpmin (i2, s2) hfil2
        rw [hline] at this
        exact this
      · rw [recompute_current, map_current_revertAtIdx]

/-- Witness for C5: a concrete file state with one translated segment in
the window, one untouched translated-equal segment, and one protected
segment; the windowed pass reverts exactly the first. -/
theorem repair_reverts_targeted_witness :
    ((1 : Nat) ≤ 2 ∧ (1 : Nat) ≤ 1 ∧
      ∃ s ∈ [(⟨"old text".toList, "new text".toList, true, 1, 2⟩ : SegState),
        ⟨"same".toList, "same".toList, true, 10, 11⟩,
        ⟨"prot".toList, "prot2".toList, false, 12, 13⟩],
        segQualifies (max 1 (2 - 1)) (2 + 1) s = true) ∧
    (∃ segs2, repair_file_state
        [(⟨"old text".toList, "new text".toList, true, 1, 2⟩ : SegState),
          ⟨"same".toList, "same".toList, true, 10, 11⟩,
          ⟨"prot".toList, "prot2".toList, false, 12, 13⟩] 2 1 = some segs2 ∧
      segs2.map SegState.current =
        [(⟨"old text".toList, "new text".toList, true, 1, 2⟩ : SegState),
          ⟨"same".toList, "same".toList, true, 10, 11⟩,
          ⟨"prot".toList, "prot2".toList, false, 12, 13⟩].map
          (fun s => if segQualifies (max 1 (2 - 1)) (2 + 1) s then s.original
            else s.current)) :=
  ⟨⟨by decide, by decide, by decide⟩,
    (repair_reverts_targeted
      [(⟨"old text".toList, "new text".toList, true, 1, 2⟩ : SegState),
        ⟨"same".toList, "same".toList, true, 10, 11⟩,
        ⟨"prot".toList, "prot2".toList, false, 12, 13⟩] 2 1
      (by decide) (by decide)).1 (by decide)⟩

/-- countSub on the empty string is zero for a nonempty pattern. -/
theorem countSub_nil (p : PyStr) (hp : p ≠ []) : countSub p [] = 0 := by
  unfold countSub
  rw [dif_neg hp]
  rw [countSubGo]

/-- Unfolding of countSub at a match. -/
theorem countSub_cons_pos (p : PyStr) (hp : p ≠ []) (c : Char) (s : PyStr)
    (h : p.isPrefixOf (c :: s) = true) :
    countSub p (c :: s) = 1 + countSub p ((c :: s).drop p.length) := by
  unfold countSub
  rw [dif_neg hp, dif_neg hp]
  conv_lhs => rw [countSubGo]
  rw [if_pos h]

/-- Unfolding of countSub at a non-match. -/
theorem countSub_cons_neg (p : PyStr) (hp : p ≠ []) (c : Char) (s : PyStr)
    (h : ¬(p.isPrefixOf (c :: s) = true)) :
    countSub p (c :: s) = countSub p s := by
  unfold countSub
  rw [dif_neg hp, dif_neg hp]
  conv_lhs => rw [countSubGo]
  rw [if_neg h]

/-- A nonempty prefix pattern starts with the head of the list it matches. -/
theorem isPrefixOf_cons_elim (p : PyStr) (hp : p ≠ []) (c : Char) (s : PyStr)
    (h : p.isPrefixOf (c :: s) = true) :
    ∃ pt, p = c :: pt ∧ pt.isPrefixOf s = true := by
  cases p with
  | nil => exact absurd rfl hp
  | cons ph pt =>
    simp only [List.isPrefixOf, Bool.and_eq_true, beq_iff_eq] at h
    exact ⟨pt, by rw [h.1], h.2⟩

/-- An occurrence count is unchanged by prepending characters from a class
disjoint from the pattern. -/
theorem countSub_append_left (P : Char → Bool) (p : PyStr) (hp : p ≠ [])
    (hnp : ∀ a ∈ p, P a = false) : ∀ (lead x : PyStr), (∀ a ∈ lead, P a = true) →
    countSub p (lead ++ x) = countSub p x := by
  intro lead
  induction lead with
  | nil => intro x _; rfl
  | cons l ls ih =>
    intro x hl
    rw [List.cons_append]
    rw [countSub_cons_neg p hp _ _ ?hnpre]
    case hnpre =>
      intro hpre
      obtain ⟨pt, hpeq, _⟩ := isPrefixOf_cons_elim p hp _ _ hpre
      have hPl : P l = true := hl l (by simp)
      have : P l = false := hnp l (by rw [hpeq]; simp)
      rw [this] at hPl
      exact absurd hPl (by simp)
    exact ih x (fun a ha => hl a (by simp [ha]))

/-- A string made only of characters from a class disjoint from the pattern
contains no occurrence. -/
theorem countSub_allP (P : Char → Bool) (p : PyStr) (hp : p ≠ [])
    (hnp : ∀ a ∈ p, P a = false) : ∀ (trail : PyStr), (∀ a ∈ trail, P a = true) →
    countSub p trail = 0 := by
  intro trail
  induction trail with
  | nil => intro _; exact countSub_nil p hp
  | cons t ts ih =>
    intro ht
    rw [countSub_cons_neg p hp _ _ ?hnpre]
    case hnpre =>
      intro hpre
      obtain ⟨pt, hpeq, _⟩ := isPrefixOf_cons_elim p hp _ _ hpre
      have hPt : P t = true := ht t (by simp)
      have : P t = false := hnp t (by rw [hpeq]; simp)
      rw [this] at hPt
      exact absurd hPt (by simp)
    exact ih (fun a ha => ht a (by simp [ha]))

/-- A prefix occurrence in an extension by disjoint-class characters is
already an occurrence of the base string. -/
theorem prefix_of_append_allP (P : Char → Bool) (p : PyStr)
    (hnp : ∀ a ∈ p, P a = false) (x trail : PyStr) (ht : ∀ a ∈ trail, P a = true)
    (h : p <+: x ++ trail) : p <+: x := by
  by_cases hlen : p.length ≤ x.length
  · rw [List.prefix_iff_eq_take] at h ⊢
    rw [List.take_append_of_le_length hlen] at h
    exact h
  · exfalso
    rw [List.prefix_iff_eq_take, List.take_append_eq_append_take] at h
    cases htr : trail with
    | nil =>
      rw [htr] at h
      simp only [List.take_nil, List.append_nil] at h
      have := congrArg List.length h
      simp only [List.length_take] at this
      omega
    | cons t0 ts =>
      have hmem : t0 ∈ p := by
        rw [h, htr]
        refine List.mem_append_right _ ?_
        have : 0 < p.length - x.length := by omega
        cases hk : p.length - x.length with
        | zero => omega
        | succ k => simp [List.take_cons]
      have h1 : P t0 = true := ht t0 (by rw [htr]; simp)
      have h2 : P t0 = false := hnp t0 hmem
      rw [h1] at h2
      exact absurd h2 (by simp)

/-- Prepending the pattern itself adds exactly one occurrence. -/
theorem countSub_prepend_self (p : PyStr) (hp : p ≠ []) (u : PyStr) :
    countSub p (p ++ u) = 1 + countSub p u := by
  cases hpe : p with
  | nil => exact absurd hpe hp
  | cons p0 pt =>
    rw [← hpe]
    have hpre : p.isPrefixOf (p ++ u) = true := by
      rw [List.isPrefixOf_iff_prefix]
      exact List.prefix_append p u
    have : p ++ u = p0 :: (pt ++ u) := by rw [hpe, List.cons_append]
    rw [this] at hpre ⊢
    rw [countSub_cons_pos p hp _ _ hpre]
    congr 1
    have : p0 :: (pt ++ u) = p ++ u := by rw [hpe, List.cons_append]
    rw [this, List.drop_left]

/-- An occurrence count is unchanged by appending characters from a class
disjoint from the pattern. -/
theorem countSub_append_right (P : Char → Bool) (p : PyStr) (hp : p ≠ [])
    (hnp : ∀ a ∈ p, P a = false) (trail : PyStr) (ht : ∀ a ∈ trail, P a = true) :
    ∀ x : PyStr, countSub p (x ++ trail) = countSub p x
  | [] => by
    rw [List.nil_append, countSub_nil p hp]
    exact countSub_allP P p hp hnp trail ht
  | c :: x2 => by
    by_cases hpre : p.isPrefixOf ((c :: x2) ++ trail) = true
    · have hpx : p <+: c :: x2 := by
        refine prefix_of_append_allP P p hnp _ trail ht ?_
        rw [← List.isPrefixOf_iff_prefix]
        exact hpre
      have hplen : p.length ≤ (c :: x2).length := hpx.length_le
      rw [List.cons_append, countSub_cons_pos p hp _ _ (by rw [← List.cons_append]; exact hpre)]
      rw [countSub_cons_pos p hp _ _ (by rw [List.isPrefixOf_iff_prefix]; exact hpx)]
      have hdrop : (c :: (x2 ++ trail)).drop p.length = (c :: x2).drop p.length ++ trail := by
        rw [← List.cons_append, List.drop_append_eq_append_drop,
          Nat.sub_eq_zero_of_le hplen, List.drop_zero]
      rw [hdrop]
      congr 1
      exact countSub_append_right P p hp hnp trail ht ((c :: x2).drop p.length)
    · have hpre2 : ¬(p.isPrefixOf (c :: x2) = true) := by
        intro hcontra
        refine hpre ?_
        rw [List.isPrefixOf_iff_prefix] at hcontra ⊢
        exact hcontra.trans (List.prefix_append _ _)
      rw [List.cons_append, countSub_cons_neg p hp _ _ (by rw [← List.cons_append]; exact hpre)]
      rw [countSub_cons_neg p hp _ _ hpre2]
      exact countSub_append_right P p hp hnp trail ht x2
termination_by x => x.length
decreasing_by
  · have h1 : 1 ≤ p.length := List.length_pos.mpr hp
    simp only [List.length_drop, List.length_cons]
    omega
  · simp

/-- Whitespace contains no pattern character for a whitespace-free
pattern, so stripping both ends preserves the occurrence count. -/
theorem countSub_pyStrip (p : PyStr) (hp : p ≠ [])
    (hnp : ∀ a ∈ p, pyIsSpace a = false) (c : PyStr) :
    countSub p (pyStrip c) = countSub p c := by
  unfold pyStrip pyStripWith pyDropLeading pyDropTrailing
  have hsplit : c = c.takeWhile pyIsSpace ++ c.dropWhile pyIsSpace :=
    (List.takeWhile_append_dropWhile pyIsSpace c).symm
  have hlead : countSub p c = countSub p (c.dropWhile pyIsSpace) := by
    conv_lhs => rw [hsplit]
    exact countSub_append_left pyIsSpace p hp hnp _ _
      (fun a ha => List.mem_takeWhile_imp ha)
  rw [hlead]
  set u := c.dropWhile pyIsSpace with hu
  have husplit : u = (u.reverse.dropWhile pyIsSpace).reverse ++
      (u.reverse.takeWhile pyIsSpace).reverse := by
    rw [← List.reverse_append, List.takeWhile_append_dropWhile, List.reverse_reverse]
  conv_rhs => rw [husplit]
  rw [countSub_append_right pyIsSpace p hp hnp _ ?htrail]
  case htrail =>
    intro a ha
    exact List.mem_takeWhile_imp (List.mem_reverse.mp ha)

/-- Restoring the original's edge whitespace preserves the occurrence
count of any nonempty whitespace-free pattern. -/
theorem countSub_restore_edge (p : PyStr) (hp : p ≠ [])
    (hnp : ∀ a ∈ p, pyIsSpace a = false) (o c : PyStr) :
    countSub p (restore_edge_whitespace o c) = countSub p c := by
  unfold restore_edge_whitespace
  by_cases ho : o = []
  · rw [if_pos ho]
  · rw [if_neg ho, List.append_assoc]
    rw [countSub_append_left pyIsSpace p hp hnp _ _
      (fun a ha => List.mem_takeWhile_imp ha)]
    rw [countSub_append_right pyIsSpace p hp hnp _ ?htrail]
    case htrail =>
      intro a ha
      exact List.mem_takeWhile_imp (List.mem_reverse.mp ha)
    exact countSub_pyStrip p hp hnp c

/-- Threading of the previous-character context through a scanned string. -/
def prevThread : Option Char → PyStr → Option Char
  | prev, [] => prev
  | _, a :: w => prevThread (some a) w

/-- The underscore-escape scan copies any underscore-free block verbatim. -/
theorem fix_append_no_target (w : PyStr) (hw : ∀ a ∈ w, a ≠ '_') :
    ∀ (prev : Option Char) (u : PyStr),
      subEscapeUnescapedGo '_' prev (w ++ u) =
        w ++ subEscapeUnescapedGo '_' (prevThread prev w) u := by
  induction w with
  | nil => intro prev u; rfl
  | cons a w2 ih =>
    intro prev u
    rw [List.cons_append]
    rw [subEscapeUnescapedGo]
    rw [if_neg (by
      intro hcontra
      exact hw a (by simp) hcontra.1)]
    rw [ih (fun b hb => hw b (by simp [hb])) (some a) u]
    rfl

/-- For a pattern block without backslash or underscore, being a prefix of
the escape-scanned string is the same as being a prefix of the original. -/
theorem fix_isPrefixOf_iff (q : PyStr) (hq : ∀ a ∈ q, a ≠ '\\' ∧ a ≠ '_') :
    ∀ (u : PyStr) (prev : Option Char),
      q.isPrefixOf (subEscapeUnescapedGo '_' prev u) = q.isPrefixOf u := by
  intro u
  induction u generalizing q with
  | nil => intro prev; rfl
  | cons d u2 ih =>
    intro prev
    rw [subEscapeUnescapedGo]
    by_cases hesc : d = '_' ∧ prev ≠ some '\\'
    · rw [if_pos hesc]
      cases q with
      | nil => rfl
      | cons a q2 =>
        have ha := hq a (by simp)
        simp only [List.isPrefixOf]
        rw [hesc.1]
        have h1 : (a == '\\') = false := by
          simp only [beq_eq_false_iff_ne, ne_eq]
          exact ha.1
        have h2 : (a == '_') = false := by
          simp only [beq_eq_false_iff_ne, ne_eq]
          exact ha.2
        rw [h1, h2]
        simp
    · rw [if_neg hesc]
      cases q with
      | nil => rfl
      | cons a q2 =>
        simp only [List.isPrefixOf]
        rw [ih q2 (fun b hb => hq b (by simp [hb])) (some d)]

/-- The underscore-escape rewrite preserves the occurrence count of the
backslash-led structural tokens: the pattern starts with a backslash, its
tail contains neither backslash nor underscore, and the inserted backslash
is always followed by an underscore, so no occurrence can be created or
destroyed. -/
theorem countSub_fix_underscore (pt : PyStr) (hpt : pt ≠ [])
    (hptc : ∀ a ∈ pt, a ≠ '\\' ∧ a ≠ '_') :
    ∀ (u : PyStr) (prev : Option Char),
      countSub ('\\' :: pt) (subEscapeUnescapedGo '_' prev u) = countSub ('\\' :: pt) u
  | [], prev => by rfl
  | d :: u2, prev => by
    have hp : ('\\' :: pt) ≠ [] := by simp
    rw [subEscapeUnescapedGo]
    by_cases hesc : d = '_' ∧ prev ≠ some '\\'
    · rw [if_pos hesc]
      obtain ⟨hd, hprev⟩ := hesc
      subst hd
      have hnp1 : ¬(('\\' :: pt).isPrefixOf
          ('\\' :: '_' :: subEscapeUnescapedGo '_' (some '_') u2) = true) := by
        simp only [List.isPrefixOf, Bool.and_eq_true, beq_iff_eq]
        rintro ⟨-, hcontra⟩
        cases pt with
        | nil => exact absurd rfl hpt
        | cons a pt2 =>
          simp only [List.isPrefixOf, Bool.and_eq_true, beq_iff_eq] at hcontra
          exact (hptc a (by simp)).2 hcontra.1
      rw [countSub_cons_neg _ hp _ _ hnp1]
      have hnp2 : ¬(('\\' :: pt).isPrefixOf
          ('_' :: subEscapeUnescapedGo '_' (some '_') u2) = true) := by
        simp only [List.isPrefixOf, Bool.and_eq_true, beq_iff_eq]
        rintro ⟨hcontra, -⟩
        exact absurd hcontra.symm (by decide)
      rw [countSub_cons_neg _ hp _ _ hnp2]
      have hnp3 : ¬(('\\' :: pt).isPrefixOf ('_' :: u2) = true) := by
        simp only [List.isPrefixOf, Bool.and_eq_true, beq_iff_eq]
        rintro ⟨hcontra, -⟩
        exact absurd hcontra.symm (by decide)
      rw [countSub_cons_neg _ hp _ _ hnp3]
      exact countSub_fix_underscore pt hpt hptc u2 (some '_')
    · rw [if_neg hesc]
      by_cases hpre : ('\\' :: pt).isPrefixOf (d :: u2) = true
      · obtain ⟨pt2, hpeq, hptpre⟩ := isPrefixOf_cons_elim _ hp _ _ hpre
        have hdeq : d = '\\' := by
          injection hpeq with h1 _
          exact h1.symm
        have hpt2 : pt2 = pt := by
          injection hpeq with _ h2
          exact h2.symm
        rw [hpt2] at hptpre
        rw [List.isPrefixOf_iff_prefix] at hptpre
        obtain ⟨rest, hrest⟩ := hptpre
        rw [← hrest]
        rw [fix_append_no_target pt (fun b hb => (hptc b hb).2) (some d) rest]
        have hfold1 : d :: (pt ++ subEscapeUnescapedGo '_' (prevThread (some d) pt) rest) =
            ('\\' :: pt) ++ subEscapeUnescapedGo '_' (prevThread (some d) pt) rest := by
          rw [hdeq, List.cons_append]
        have hfold2 : d :: (pt ++ rest) = ('\\' :: pt) ++ rest := by
          rw [hdeq, List.cons_append]
        rw [hfold1, hfold2, countSub_prepend_self _ hp, countSub_prepend_self _ hp]
        congr 1
        exact countSub_fix_underscore pt hpt hptc rest (prevThread (some d) pt)
      · have hpre2 : ¬(('\\' :: pt).isPrefixOf
            (d :: subEscapeUnescapedGo '_' (some d) u2) = true) := by
          intro hcontra
          obtain ⟨pt2, hpeq, hptpre⟩ := isPrefixOf_cons_elim _ hp _ _ hcontra
          have hpt2 : pt2 = pt := by
            injection hpeq with _ h2
            exact h2.symm
          rw [hpt2, fix_isPrefixOf_iff pt hptc u2 (some d)] at hptpre
          refine hpre ?_
          have hdeq : d = '\\' := by
            injection hpeq with h1 _
            exact h1.symm
          rw [hdeq]
          simp only [List.isPrefixOf, Bool.and_eq_true, beq_iff_eq]
          exact ⟨by trivial, hptpre⟩
        rw [countSub_cons_neg _ hp _ _ hpre2, countSub_cons_neg _ hp _ _ hpre]
        exact countSub_fix_underscore pt hpt hptc u2 (some d)
termination_by u _ => u.length
decreasing_by
  · simp
  · have hlen := congrArg List.length hrest
    rw [List.length_append] at hlen
    simp only [List.length_cons]
    omega
  · simp

/-- The four structural tokens are nonempty, whitespace-free, and of the
backslash-plus-letters form needed by the underscore-fix lemma. -/
theorem structural_token_facts (p : PyStr)
    (hp : p ∈ [beginTok, endTok, itemTok, captionTok]) :
    p ≠ [] ∧ (∀ a ∈ p, pyIsSpace a = false) := by
  simp only [List.mem_cons, List.not_mem_nil, or_false] at hp
  rcases hp with rfl | rfl | rfl | rfl
  · exact ⟨by decide, by decide⟩
  · exact ⟨by decide, by decide⟩
  · exact ⟨by decide, by decide⟩
  · exact ⟨by decide, by decide⟩

/-- The underscore-escape rewrite preserves all four structural token
counts. -/
theorem countSub_underscore_tokens (p : PyStr)
    (hp : p ∈ [beginTok, endTok, itemTok, captionTok]) (u : PyStr) :
    countSub p (subEscapeUnderscore u) = countSub p u := by
  simp only [List.mem_cons, List.not_mem_nil, or_false] at hp
  rcases hp with rfl | rfl | rfl | rfl
  · exact countSub_fix_underscore "begin".toList (by decide) (by decide) u none
  · exact countSub_fix_underscore "end".toList (by decide) (by decide) u none
  · exact countSub_fix_underscore "item".toList (by decide) (by decide) u none
  · exact countSub_fix_underscore "caption".toList (by decide) (by decide) u none

/-- A successful guard candidate carries the original's structural token
counts: the four count checks passed and the only later rewrite, the
underscore escape, cannot change them. -/
theorem guardCandidate_counts (o t c : PyStr) (h : guardCandidate o t = some c)
    (p : PyStr) (hp : p ∈ [beginTok, endTok, itemTok, captionTok]) :
    countSub p c = countSub p o := by
  simp only [guardCandidate] at h
  split at h
  · exact absurd h (by simp)
  · split at h
    · exact absurd h (by simp)
    · split at h
      · exact absurd h (by simp)
      · split at h
        · exact absurd h (by simp)
        · split at h
          · exact absurd h (by simp)
          · split at h
            · exact absurd h (by simp)
            · rename_i hbeg hend hitem hcap
              push_neg at hbeg hend hitem hcap
              have hout1 : countSub p
                  (subModInBracket (subSpaceBeforeCmd (subSpaceAfterCmd
                    (subEscapePercent (normalize_llm_translated_chunk t))))) = countSub p o := by
                simp only [List.mem_cons, List.not_mem_nil, or_false] at hp
                rcases hp with rfl | rfl | rfl | rfl
                · exact hbeg.symm
                · exact hend.symm
                · exact hitem.symm
                · exact hcap.symm
              split at h
              · cases h
                rw [countSub_underscore_tokens p hp]
                exact hout1
              · cases h
                exact hout1

/-- C2 amended: the guard preserves the structural token counts
(backslash begin, end, item, caption) whenever the brace balance of its
post-substitution candidate already matches the original's, so no
realignment runs; and whenever the brace balance cannot be reconciled even
after the _join_most realignment, the guard returns exactly the original.
As stated the count claim fails: the realignment path can splice original
text after a truncation point and change token counts (see the
counterexample). -/
theorem guard_structural_amended :
    (∀ original translated : PyStr,
      ((guardCandidate original translated).all
        (fun c => braceLevel c == braceLevel original)) = true →
      ∀ p ∈ [beginTok, endTok, itemTok, captionTok],
        countSub p (guard_translated_segment original translated) = countSub p original) ∧
    (∀ original translated c : PyStr, guardCandidate original translated = some c →
      braceLevel c ≠ braceLevel original →
      braceLevel (join_most c original) ≠ braceLevel original →
      guard_translated_segment original translated = original) := by
  constructor
  · intro o t hlvl p hp
    obtain ⟨hpne, hpws⟩ := structural_token_facts p hp
    cases hc : guardCandidate o t with
    | none =>
      unfold guard_translated_segment
      rw [hc]
    | some c =>
      rw [hc] at hlvl
      simp only [Option.all_some, beq_iff_eq] at hlvl
      unfold guard_translated_segment
      rw [hc]
      show countSub p (guardBraceStage o c) = countSub p o
      unfold guardBraceStage
      rw [if_pos hlvl]
      unfold guardFinalStage
      split
      · rfl
      · rw [countSub_restore_edge p hpne hpws o c]
        exact guardCandidate_counts o t c hc p hp
  · intro o t c hc hne hjoin
    unfold guard_translated_segment
    rw [hc]
    show guardBraceStage o c = o
    unfold guardBraceStage
    rw [if_neg hne, if_pos hjoin]

unseal countSubGo subSpaceAfterCmd subSpaceBeforeCmd subModInBracket joinMostLoop in
/-- Witness for C2 amended: a concrete pair whose candidate brace level
matches, with the item count preserved, and a concrete irreconcilable pair
returned as the original. -/
theorem guard_structural_amended_witness :
    (((guardCandidate "\\item old text".toList "\\item new text".toList).all
        (fun c => braceLevel c == braceLevel "\\item old text".toList)) = true ∧
      itemTok ∈ [beginTok, endTok, itemTok, captionTok] ∧
      countSub itemTok
        (guard_translated_segment "\\item old text".toList "\\item new text".toList) =
        countSub itemTok "\\item old text".toList) ∧
    (guardCandidate "\x7b".toList "\x7d\x7b".toList = some "\x7d\x7b".toList ∧
      braceLevel "\x7d\x7b".toList ≠ braceLevel "\x7b".toList ∧
      braceLevel (join_most "\x7d\x7b".toList "\x7b".toList) ≠ braceLevel "\x7b".toList ∧
      guard_translated_segment "\x7b".toList "\x7d\x7b".toList = "\x7b".toList) :=
  ⟨⟨by decide, by decide,
      guard_structural_amended.1 "\\item old text".toList "\\item new text".toList
        (by decide) itemTok (by decide)⟩,
    ⟨by decide, by decide, by decide,
      guard_structural_amended.2 "\x7b".toList "\x7d\x7b".toList "\x7d\x7b".toList
        (by decide) (by decide) (by decide)⟩⟩

unseal countSubGo subSpaceAfterCmd subSpaceBeforeCmd subModInBracket joinMostLoop in
/-- Counterexample to C2 as stated: for original with one item token and an
unbalanced translation, the _join_most realignment splices the original's
tail after the truncated candidate and the guard returns a string with two
item tokens. -/
theorem guard_structural_counterexample :
    guard_translated_segment "\x7b\x7d\\item x\x7b".toList "\\item\x7b\x7d x".toList =
      "\\item\x7b\x7d\\item x\x7b".toList ∧
    countSub itemTok (guard_translated_segment "\x7b\x7d\\item x\x7b".toList
      "\\item\x7b\x7d x".toList) = 2 ∧
    countSub itemTok "\x7b\x7d\\item x\x7b".toList = 1 := by
  refine ⟨by decide, by decide, by decide⟩

/-- Hypothesis predicate for the fixed-point theorem of
ensure_section_title_bold: every scanned match with a matching close brace
starts at or after the previous processed payload's close brace
(no nesting into an earlier payload) and its payload, with spaces and
newlines removed, already contains the bold markers. -/
def sectionTitlesFixedGo (text : PyStr) : List Nat → Nat → Bool
  | [], _ => true
  | openPos :: ms, cursor =>
    match findMatchingBrace text openPos with
    | none => sectionTitlesFixedGo text ms cursor
    | some closePos =>
      decide (cursor ≤ openPos + 1) &&
        (containsSub (((text.take closePos).drop (openPos + 1)).filter
            (fun c => ¬(c = ' ' ∨ c = '\n'))) textbfOpen ||
          containsSub (((text.take closePos).drop (openPos + 1)).filter
            (fun c => ¬(c = ' ' ∨ c = '\n'))) bfseriesTok) &&
        sectionTitlesFixedGo text ms closePos

/-- Fixed-point hypothesis over the whole scan of a text. -/
def sectionTitlesFixed (text : PyStr) : Bool :=
  sectionTitlesFixedGo text (sectionScan text 0) 0

/-- Splicing a middle slice against the following suffix recovers the
original suffix. -/
theorem drop_take_drop (text : PyStr) (b c : Nat) (hbc : b ≤ c) (hcl : c ≤ text.length) :
    (text.take c).drop b ++ text.drop c = text.drop b := by
  have h1 : text.drop b = (text.take c ++ text.drop c).drop b := by
    rw [List.take_append_drop]
  rw [h1, List.drop_append_eq_append_drop, List.length_take, Nat.min_eq_left hcl,
    Nat.sub_eq_zero_of_le hbc, List.drop_zero]

/-- Under the fixed-point hypothesis the match-processing loop reproduces
exactly the text from the cursor on: each processed payload is already bold
so it is copied verbatim, and the sequential-cursor condition makes the
copied slices contiguous. -/
theorem processSectionMatches_fixed (text : PyStr) :
    ∀ (ms : List Nat) (cursor : Nat), sectionTitlesFixedGo text ms cursor = true →
      cursor ≤ text.length →
      (processSectionMatches text ms cursor).1 ++
          text.drop (processSectionMatches text ms cursor).2.1 = text.drop cursor ∧
        cursor ≤ (processSectionMatches text ms cursor).2.1 ∧
        (processSectionMatches text ms cursor).2.1 ≤ text.length := by
  intro ms
  induction ms with
  | nil =>
    intro cursor _ hc
    exact ⟨rfl, Nat.le_refl _, hc⟩
  | cons openPos ms2 ih =>
    intro cursor h hc
    simp only [sectionTitlesFixedGo] at h
    simp only [processSectionMatches]
    cases hfb : findMatchingBrace text openPos with
    | none =>
      rw [hfb] at h
      dsimp only at h ⊢
      exact ih cursor h hc
    | some closePos =>
      rw [hfb] at h
      dsimp only at h ⊢
      simp only [Bool.and_eq_true, decide_eq_true_eq, Bool.or_eq_true] at h
      obtain ⟨⟨hcur, hbold⟩, hrest⟩ := h
      obtain ⟨hoc, hcl⟩ := findMatchingBrace_bounds text openPos closePos hfb
      have hcll : closePos ≤ text.length := Nat.le_of_lt hcl
      obtain ⟨ihcat, ihle, ihlen⟩ := ih closePos hrest hcll
      rw [if_pos hbold]
      refine ⟨?_, ?_, ihlen⟩
      · simp only [List.append_assoc]
        rw [ihcat]
        rw [drop_take_drop text (openPos + 1) closePos hoc hcll]
        exact drop_take_drop text cursor (openPos + 1) hcur (by omega)
      · omega

/-- A text whose scanned section payloads are all bold and non-nested is a
fixed point of ensure_section_title_bold. -/
theorem ensure_section_fixed (text : PyStr) (h : sectionTitlesFixed text = true) :
    ensure_section_title_bold text = text := by
  unfold ensure_section_title_bold
  by_cases h0 : text = []
  · rw [if_pos h0]
  · rw [if_neg h0]
    split
    · rfl
    · have hmain := processSectionMatches_fixed text (sectionScan text 0) 0 h (by omega)
      rw [hmain.1]
      exact List.drop_zero text

/-- C10 amended: ensure_section_title_bold is idempotent on every text whose
first application yields a result satisfying the fixed-point condition
(every brace-matched section payload already bold after space and newline
removal, and no match starting inside a previously processed payload); the
function is not idempotent in general, as nested section commands violate
the condition (see the counterexample). -/
theorem ensure_section_title_bold_amended (text : PyStr)
    (h : sectionTitlesFixed (ensure_section_title_bold text) = true) :
    ensure_section_title_bold (ensure_section_title_bold text) =
      ensure_section_title_bold text :=
  ensure_section_fixed (ensure_section_title_bold text) h

unseal sectionScan in
/-- Witness for C10 amended at a concrete heading whose payload is already
bold. -/
theorem ensure_section_title_bold_amended_witness :
    sectionTitlesFixed
      (ensure_section_title_bold "\\section\x7b\\textbf\x7bIntro\x7d\x7d body".toList) = true ∧
    ensure_section_title_bold
        (ensure_section_title_bold "\\section\x7b\\textbf\x7bIntro\x7d\x7d body".toList) =
      ensure_section_title_bold "\\section\x7b\\textbf\x7bIntro\x7d\x7d body".toList :=
  ⟨by decide,
    ensure_section_title_bold_amended "\\section\x7b\\textbf\x7bIntro\x7d\x7d body".toList
      (by decide)⟩

unseal sectionScan in
/-- Counterexample to C10 as stated: a nested section command makes the
second application differ from the first, because the inner match starts
inside the outer payload and the cursor arithmetic duplicates text. -/
theorem ensure_section_title_bold_counterexample :
    ensure_section_title_bold
        (ensure_section_title_bold "\\section\x7bx\\section\x7by\x7d\x7d".toList) ≠
      ensure_section_title_bold "\\section\x7bx\\section\x7by\x7d\x7d".toList := by
  decide

end ArxivTranslate
